import Mathlib

/-!
Shallow embedding of the MiniDB-on-Crypto core and proofs about it.

Embedded components:
* the AVL tree map of `core/indexing.py` (`BalanceableBinaryTree`,
  `AVLTreeMap`): the pointer structure is represented as a functional
  binary tree plus an explicit zipper context standing for the parent
  chain, so that `_rebalance_avl`, which walks parent pointers with an
  early break, can be mirrored step by step;
* the record store of `core/storage.py` (`CryptoDB`);
* the wallet graph of `core/graph.py` (`CryptoGraph`);
* the streaming analytics of `app.py` (`_iter_amounts`,
  `amount_usd_analytics`).

Python floats are modelled as rationals, Python `None` as `Option`,
Python dicts (insertion ordered) as association lists updated in place.
-/

namespace MiniDB

/-- Binary tree with a cached auxiliary integer per node, mirroring
`BalanceableBinaryTree._BSTNode`: `nil` is Python `None`, `aux` is the
node's `_aux` field (the cached height), and the `_element` (a
`Map._MapEntry`) is split into `key` and `value`. -/
inductive AVL (α : Type) (β : Type) where
  | nil : AVL α β
  | node (left : AVL α β) (key : α) (value : β) (aux : Nat) (right : AVL α β)
deriving Repr, DecidableEq

variable {α β : Type}

/-- `BalanceableBinaryTree._get_height`: `None` has height 0, a node
reports its cached `_aux` field. -/
def height : AVL α β → Nat
  | .nil => 0
  | .node _ _ _ h _ => h

/-- `BalanceableBinaryTree._update_height`: recompute the root's cached
height from the children's cached heights. -/
def updH : AVL α β → AVL α β
  | .nil => .nil
  | .node l k v _ r => .node l k v (1 + max (height l) (height r)) r

/-- Which side of its parent a position hangs from. -/
inductive Dir where
  | left : Dir
  | right : Dir
deriving Repr, DecidableEq

/-- One frame of the parent chain: the parent node's entry and cached
height together with its other child.  A list of frames (innermost
first) plays the role of the `_parent` pointers of the linked tree. -/
structure Frame (α β : Type) where
  dir : Dir
  key : α
  value : β
  aux : Nat
  sib : AVL α β
deriving Repr

/-- Context: the chain of ancestors of a position, innermost first. -/
abbrev Ctx (α β : Type) := List (Frame α β)

/-- Rebuild the parent node of a hole from its frame. -/
def attach (f : Frame α β) (t : AVL α β) : AVL α β :=
  match f.dir with
  | .left => .node t f.key f.value f.aux f.sib
  | .right => .node f.sib f.key f.value f.aux t

/-- Reassemble the whole tree from a subtree and its context, changing
nothing else (all ancestor cached heights are kept as stored). -/
def zipUp (t : AVL α β) : Ctx α β → AVL α β
  | [] => t
  | f :: ctx => zipUp (attach f t) ctx

/-- One iteration of the body of `_rebalance_avl` at the current node:
`_update_height`, then, if the AVL property fails there, the trinode
`restructure` of the taller child's taller child followed by the three
`_update_height` calls.  `_taller_child` breaks ties toward the left
child, so a left-heavy tie gives a single rotation while a right-heavy
tie gives a double rotation, exactly as the Python comparisons decide. -/
def rebalanceStep : AVL α β → AVL α β
  | .nil => .nil
  | .node l k v _ r =>
    if height r + 2 ≤ height l then
      match l with
      | .nil => updH (.node l k v 0 r)
      | .node ll lk lv _ lr =>
        if height lr ≤ height ll then
          updH (.node (updH ll) lk lv 0 (updH (.node lr k v 0 r)))
        else
          match lr with
          | .nil => updH (.node l k v 0 r)
          | .node lrl lrk lrv _ lrr =>
            updH (.node (updH (.node ll lk lv 0 lrl)) lrk lrv 0
              (updH (.node lrr k v 0 r)))
    else if height l + 2 ≤ height r then
      match r with
      | .nil => updH (.node l k v 0 r)
      | .node rl rk rv _ rr =>
        if height rr ≤ height rl then
          match rl with
          | .nil => updH (.node l k v 0 r)
          | .node rll rlk rlv _ rlr =>
            updH (.node (updH (.node l k v 0 rll)) rlk rlv 0
              (updH (.node rlr rk rv 0 rr)))
        else
          updH (.node (updH (.node l k v 0 rl)) rk rv 0 (updH rr))
    else updH (.node l k v 0 r)

/-- `BalanceableBinaryTree._rebalance_avl`: walk from the given position
toward the root; at each node remember the stale cached height, run
`rebalanceStep`, and stop early (leaving all ancestors untouched) as
soon as the recomputed height equals the stale one. -/
def rebalanceAvl : AVL α β → Ctx α β → AVL α β
  | t, [] => rebalanceStep t
  | t, f :: ctx =>
    let t2 := rebalanceStep t
    if height t2 = height t then zipUp t2 (f :: ctx)
    else rebalanceAvl (attach f t2) ctx

/-- `AVLTreeMap.put` search-and-insert, with the context accumulated on
the way down (`_find_position` plus `add_left` and `add_right`): a key
hit replaces the entry in place with no rebalancing, a miss creates a
fresh node with cached height 0 and rebalances from it. -/
def putGo [LinearOrder α] : AVL α β → α → β → Ctx α β → AVL α β × Option β
  | .nil, k, v, ctx => (rebalanceAvl (.node .nil k v 0 .nil) ctx, none)
  | .node l k0 v0 h r, k, v, ctx =>
    if k = k0 then (zipUp (.node l k v h r) ctx, some v0)
    else if k < k0 then putGo l k v (⟨.left, k0, v0, h, r⟩ :: ctx)
    else putGo r k v (⟨.right, k0, v0, h, l⟩ :: ctx)

/-- Walk to the leftmost node of a subtree (`_subtree_first_position`),
returning its entry, its right child (the splice replacement of
`LinkedBinaryTree.remove`), and the frames passed on the way down
(innermost first, relative to the subtree's root). -/
def downLeft [Inhabited α] [Inhabited β] :
    AVL α β → Ctx α β → α × β × AVL α β × Ctx α β
  | .nil, acc => (default, default, .nil, acc)
  | .node .nil k v _ r, acc => (k, v, r, acc)
  | .node (.node ll lk lv lh lr) k v h r, acc =>
    downLeft (.node ll lk lv lh lr) (⟨.left, k, v, h, r⟩ :: acc)

/-- Splice a replacement child into the hole and rebalance from the
removed node's parent upward (`_rebalance_avl(parent)` after
`LinkedBinaryTree.remove`); with no parent the child becomes the root
and nothing is rebalanced. -/
def spliceUp (c : AVL α β) : Ctx α β → AVL α β
  | [] => c
  | f :: ctx => rebalanceAvl (attach f c) ctx

/-- `AVLTreeMap.remove` search-and-delete with accumulated context: a
miss leaves the tree unchanged; a node with two children takes over the
entry of the in-order successor and the successor node is spliced out
instead; otherwise the node is spliced out directly. -/
def removeGo [LinearOrder α] [Inhabited α] [Inhabited β] :
    AVL α β → α → Ctx α β → AVL α β × Option β
  | .nil, _, ctx => (zipUp .nil ctx, none)
  | .node l k0 v0 h r, k, ctx =>
    if k = k0 then
      match l, r with
      | .nil, _ => (spliceUp r ctx, some v0)
      | _, .nil => (spliceUp l ctx, some v0)
      | _, _ =>
        match downLeft r [] with
        | (sk, sv, repl, rel) =>
          (spliceUp repl (rel ++ ⟨.right, sk, sv, h, l⟩ :: ctx), some v0)
    else if k < k0 then removeGo l k (⟨.left, k0, v0, h, r⟩ :: ctx)
    else removeGo r k (⟨.right, k0, v0, h, l⟩ :: ctx)

/-- `AVLTreeMap._find_position` followed by reading the value
(`AVLTreeMap.get`). -/
def getA [LinearOrder α] : AVL α β → α → Option β
  | .nil, _ => none
  | .node l k0 v0 _ r, k =>
    if k = k0 then some v0 else if k < k0 then getA l k else getA r k

/-- In-order list of entries (`AbstractBinaryTree.inorder` through
`LinkedBinaryTree.__iter__`). -/
def entries : AVL α β → List (α × β)
  | .nil => []
  | .node l k v _ r => entries l ++ (k, v) :: entries r

/-- `AVLTreeMap.sub_map`, first phase: the first `while` loop walks down
keeping the last node where it went left (`current`), which identifies a
position; the second phase iterates in-order successors from `current`,
which enumerates exactly the in-order suffix starting there.  This
function computes that suffix directly. -/
def seekEntries [LinearOrder α] : AVL α β → α → List (α × β)
  | .nil, _ => []
  | .node l k v _ r, k1 =>
    if k1 ≤ k then seekEntries l k1 ++ (k, v) :: entries r
    else seekEntries r k1

/-- `AVLTreeMap` with its `_size` field. -/
structure AVLTreeMap (α β : Type) where
  tree : AVL α β
  size : Nat
deriving Repr

/-- `AVLTreeMap.__init__`. -/
def AVLTreeMap.empty : AVLTreeMap α β := ⟨.nil, 0⟩

/-- `AVLTreeMap.get`. -/
def AVLTreeMap.get [LinearOrder α] (m : AVLTreeMap α β) (k : α) : Option β :=
  getA m.tree k

/-- `AVLTreeMap.put`, returning the new map and the previous value. -/
def AVLTreeMap.put [LinearOrder α] (m : AVLTreeMap α β) (k : α) (v : β) :
    AVLTreeMap α β × Option β :=
  match putGo m.tree k v [] with
  | (t, old) => (⟨t, if old.isSome then m.size else m.size + 1⟩, old)

/-- `AVLTreeMap.remove`, returning the new map and the removed value. -/
def AVLTreeMap.remove [LinearOrder α] [Inhabited α] [Inhabited β]
    (m : AVLTreeMap α β) (k : α) : AVLTreeMap α β × Option β :=
  match removeGo m.tree k [] with
  | (t, old) => (⟨t, if old.isSome then m.size - 1 else m.size⟩, old)

/-- `AVLTreeMap.__iter__`: the keys in in-order. -/
def AVLTreeMap.keysList (m : AVLTreeMap α β) : List α :=
  (entries m.tree).map Prod.fst

/-- `AVLTreeMap.values`: the values in in-order. -/
def AVLTreeMap.valuesList (m : AVLTreeMap α β) : List β :=
  (entries m.tree).map Prod.snd

/-- `AVLTreeMap.sub_map`: values for keys `k` with `k1 ≤ k < k2`; the
second loop yields while `key < k2` and breaks at the first failure. -/
def AVLTreeMap.subMap [LinearOrder α] (m : AVLTreeMap α β) (k1 k2 : α) :
    List β :=
  ((seekEntries m.tree k1).takeWhile (fun e => decide (e.1 < k2))).map Prod.snd

/-- True height of a subtree, independent of the cached fields. -/
def realHeight : AVL α β → Nat
  | .nil => 0
  | .node l _ _ _ r => 1 + max (realHeight l) (realHeight r)

/-- Checks, at every node, both halves of the AVL claim: the cached
height equals the true subtree height and the children's true heights
differ by at most 1. -/
def avlOkB : AVL α β → Bool
  | .nil => true
  | .node l _ _ h r =>
    avlOkB l && avlOkB r && decide (h = 1 + max (realHeight l) (realHeight r)) &&
      decide (realHeight l ≤ realHeight r + 1) &&
      decide (realHeight r ≤ realHeight l + 1)

/-- A `put` or `remove` call on an `AVLTreeMap`. -/
inductive MapOp (α β : Type) where
  | put (k : α) (v : β) : MapOp α β
  | remove (k : α) : MapOp α β
deriving Repr

/-- Apply one operation, keeping the resulting map. -/
def applyMapOp [LinearOrder α] [Inhabited α] [Inhabited β]
    (m : AVLTreeMap α β) : MapOp α β → AVLTreeMap α β
  | .put k v => (m.put k v).1
  | .remove k => (m.remove k).1

/-- Run a sequence of operations against a freshly constructed map. -/
def applyMapOps [LinearOrder α] [Inhabited α] [Inhabited β]
    (ops : List (MapOp α β)) : AVLTreeMap α β :=
  ops.foldl applyMapOp .empty

/-! ### List-level model of the map operations

The in-order entry list of the tree is related to three plain list
functions: sorted insert-or-replace, first-occurrence deletion and
first-occurrence lookup. -/

/-- Insert-or-replace into an association list kept in ascending key
order. -/
def insList [LinearOrder α] : List (α × β) → α → β → List (α × β)
  | [], k, v => [(k, v)]
  | (k0, v0) :: tl, k, v =>
    if k < k0 then (k, v) :: (k0, v0) :: tl
    else if k = k0 then (k, v) :: tl
    else (k0, v0) :: insList tl k v

/-- Remove the first entry with the given key, if any. -/
def delList [DecidableEq α] : List (α × β) → α → List (α × β)
  | [], _ => []
  | (k0, v0) :: tl, k => if k = k0 then tl else (k0, v0) :: delList tl k

/-- First-occurrence association lookup. -/
def lookupL [DecidableEq α] : List (α × β) → α → Option β
  | [], _ => none
  | (k0, v0) :: tl, k => if k = k0 then some v0 else lookupL tl k

/-- Keys of an association list. -/
def keysL (xs : List (α × β)) : List α := xs.map Prod.fst

theorem keysL_nil : keysL ([] : List (α × β)) = [] := rfl

theorem keysL_cons (e : α × β) (xs : List (α × β)) :
    keysL (e :: xs) = e.1 :: keysL xs := rfl

theorem keysL_append (xs ys : List (α × β)) :
    keysL (xs ++ ys) = keysL xs ++ keysL ys := List.map_append _ _ _

theorem mem_keysL_insList [LinearOrder α] (xs : List (α × β)) (k a : α)
    (v : β) : a ∈ keysL (insList xs k v) ↔ a = k ∨ a ∈ keysL xs := by
  induction xs with
  | nil => simp [insList, keysL]
  | cons e tl ih =>
    obtain ⟨k0, v0⟩ := e
    by_cases h1 : k < k0
    · simp [insList, h1, keysL_cons]
    · by_cases h2 : k = k0
      · subst h2
        simp [insList, h1, keysL_cons]
      · simp only [insList, if_neg h1, if_neg h2, keysL_cons, List.mem_cons, ih]
        tauto

theorem insList_append_lt [LinearOrder α] (xs ys : List (α × β)) (k : α)
    (v : β) (e : α × β) (h : k < e.1) :
    insList (xs ++ e :: ys) k v = insList xs k v ++ e :: ys := by
  induction xs with
  | nil =>
    obtain ⟨k0, v0⟩ := e
    simp only [List.nil_append, insList]
    rw [if_pos h]
    rfl
  | cons f tl ih =>
    obtain ⟨k0, v0⟩ := f
    by_cases h1 : k < k0
    · simp [insList, h1]
    · by_cases h2 : k = k0
      · simp [insList, h1, h2]
      · simp [insList, h1, h2, ih]

theorem insList_append_keys_lt [LinearOrder α] (xs ys : List (α × β))
    (k : α) (v : β) (h : ∀ a ∈ keysL xs, a < k) :
    insList (xs ++ ys) k v = xs ++ insList ys k v := by
  induction xs with
  | nil => simp
  | cons f tl ih =>
    obtain ⟨k0, v0⟩ := f
    have hk0 : k0 < k := h k0 (by simp [keysL_cons])
    have h1 : ¬ k < k0 := not_lt_of_gt hk0
    have h2 : k ≠ k0 := ne_of_gt hk0
    have ih2 := ih fun a ha => h a (by simp [keysL_cons, ha])
    simp [insList, h1, h2, ih2]

theorem delList_append_not_mem_right [DecidableEq α] (xs ys : List (α × β))
    (k : α) (h : k ∉ keysL ys) :
    delList (xs ++ ys) k = delList xs k ++ ys := by
  induction xs with
  | nil =>
    simp only [List.nil_append, delList]
    induction ys with
    | nil => rfl
    | cons f tl ih =>
      obtain ⟨k0, v0⟩ := f
      have hne : k ≠ k0 := by
        intro hk; exact h (by simp [keysL_cons, hk])
      simp only [delList, if_neg hne]
      rw [ih (by intro hm; exact h (by simp [keysL_cons]; right; exact hm))]
  | cons f tl ih =>
    obtain ⟨k0, v0⟩ := f
    by_cases h1 : k = k0
    · simp [delList, h1]
    · simp [delList, h1, ih]

theorem delList_append_not_mem_left [DecidableEq α] (xs ys : List (α × β))
    (k : α) (h : k ∉ keysL xs) :
    delList (xs ++ ys) k = xs ++ delList ys k := by
  induction xs with
  | nil => simp
  | cons f tl ih =>
    obtain ⟨k0, v0⟩ := f
    have hne : k ≠ k0 := by
      intro hk; exact h (by simp [keysL_cons, hk])
    have ih2 := ih (by intro hm; exact h (by simp [keysL_cons]; right; exact hm))
    simp [delList, hne, ih2]

theorem delList_boundary [DecidableEq α] (xs ys : List (α × β)) (k : α)
    (v : β) (h : k ∉ keysL xs) :
    delList (xs ++ (k, v) :: ys) k = xs ++ ys := by
  rw [delList_append_not_mem_left xs _ k h]
  simp [delList]

theorem delList_sublist [DecidableEq α] (xs : List (α × β)) (k : α) :
    (delList xs k).Sublist xs := by
  induction xs with
  | nil => simp [delList]
  | cons f tl ih =>
    obtain ⟨k0, v0⟩ := f
    by_cases h1 : k = k0
    · simp [delList, h1]
    · simp only [delList, if_neg h1]
      exact ih.cons₂ (k0, v0)

theorem lookupL_append_not_mem [DecidableEq α] (xs ys : List (α × β))
    (k : α) (h : k ∉ keysL xs) :
    lookupL (xs ++ ys) k = lookupL ys k := by
  induction xs with
  | nil => simp
  | cons f tl ih =>
    obtain ⟨k0, v0⟩ := f
    have hne : k ≠ k0 := by
      intro hk; exact h (by simp [keysL_cons, hk])
    simp only [List.cons_append, lookupL, if_neg hne]
    exact ih (by intro hm; exact h (by simp [keysL_cons]; right; exact hm))

theorem lookupL_eq_none_iff [DecidableEq α] (xs : List (α × β)) (k : α) :
    lookupL xs k = none ↔ k ∉ keysL xs := by
  induction xs with
  | nil => simp [lookupL, keysL]
  | cons f tl ih =>
    obtain ⟨k0, v0⟩ := f
    by_cases h1 : k = k0
    · simp [lookupL, h1, keysL_cons]
    · simp [lookupL, h1, keysL_cons, ih]

theorem lookupL_insList [LinearOrder α] (xs : List (α × β)) (k a : α)
    (v : β) :
    lookupL (insList xs k v) a = if a = k then some v else lookupL xs a := by
  induction xs with
  | nil => simp [insList, lookupL]
  | cons f tl ih =>
    obtain ⟨k0, v0⟩ := f
    by_cases h1 : k < k0
    · by_cases h2 : a = k
      · simp [insList, h1, lookupL, h2]
      · simp [insList, h1, lookupL, h2]
    · by_cases h2 : k = k0
      · subst h2
        by_cases h3 : a = k
        · simp [insList, h1, lookupL, h3]
        · simp [insList, h1, lookupL, h3]
      · by_cases h3 : a = k0
        · subst h3
          have : a ≠ k := fun hh => h2 hh.symm
          simp [insList, h1, h2, lookupL, this]
        · simp [insList, h1, h2, lookupL, h3, ih]

theorem not_mem_keysL_delList [DecidableEq α] (xs : List (α × β)) (k : α)
    (h : (keysL xs).Nodup) : k ∉ keysL (delList xs k) := by
  induction xs with
  | nil => simp [delList, keysL]
  | cons f tl ih =>
    obtain ⟨k0, v0⟩ := f
    simp only [keysL_cons, List.nodup_cons] at h
    by_cases h1 : k = k0
    · subst h1
      simpa [delList] using h.1
    · simp only [delList, if_neg h1, keysL_cons, List.mem_cons]
      push_neg
      exact ⟨h1, ih h.2⟩

theorem lookupL_delList_ne [DecidableEq α] (xs : List (α × β)) (k a : α)
    (hne : a ≠ k) : lookupL (delList xs k) a = lookupL xs a := by
  induction xs with
  | nil => simp [delList]
  | cons f tl ih =>
    obtain ⟨k0, v0⟩ := f
    by_cases h1 : k = k0
    · subst h1
      simp [delList, lookupL, hne]
    · by_cases h2 : a = k0
      · simp [delList, h1, lookupL, h2]
      · simp [delList, h1, lookupL, h2, ih]

theorem lookupL_delList_self [DecidableEq α] (xs : List (α × β)) (k : α)
    (h : (keysL xs).Nodup) : lookupL (delList xs k) k = none :=
  (lookupL_eq_none_iff _ _).mpr (not_mem_keysL_delList xs k h)

/-! ### In-order entries through the zipper -/

/-- Entries contributed by a context strictly to the left of the hole. -/
def ctxL : Ctx α β → List (α × β)
  | [] => []
  | f :: ctx =>
    match f.dir with
    | .left => ctxL ctx
    | .right => ctxL ctx ++ entries f.sib ++ [(f.key, f.value)]

/-- Entries contributed by a context strictly to the right of the hole. -/
def ctxR : Ctx α β → List (α × β)
  | [] => []
  | f :: ctx =>
    match f.dir with
    | .left => (f.key, f.value) :: (entries f.sib ++ ctxR ctx)
    | .right => ctxR ctx

theorem entries_updH (t : AVL α β) : entries (updH t) = entries t := by
  cases t <;> rfl

theorem height_updH_node (l : AVL α β) (k : α) (v : β) (h : Nat)
    (r : AVL α β) :
    height (updH (.node l k v h r)) = 1 + max (height l) (height r) := rfl

theorem entries_zipUp (t : AVL α β) (ctx : Ctx α β) :
    entries (zipUp t ctx) = ctxL ctx ++ entries t ++ ctxR ctx := by
  induction ctx generalizing t with
  | nil => simp [zipUp, ctxL, ctxR]
  | cons f ctx ih =>
    obtain ⟨d, k, v, h, sib⟩ := f
    cases d <;>
      simp [zipUp, attach, ih, ctxL, ctxR, entries, List.append_assoc]

theorem ctxL_append (xs ys : Ctx α β) : ctxL (xs ++ ys) = ctxL ys ++ ctxL xs := by
  induction xs with
  | nil => simp [ctxL]
  | cons f tl ih =>
    obtain ⟨d, k, v, h, sib⟩ := f
    cases d <;> simp [ctxL, ih, List.append_assoc]

theorem ctxR_append (xs ys : Ctx α β) : ctxR (xs ++ ys) = ctxR xs ++ ctxR ys := by
  induction xs with
  | nil => simp [ctxR]
  | cons f tl ih =>
    obtain ⟨d, k, v, h, sib⟩ := f
    cases d <;> simp [ctxR, ih, List.append_assoc]

theorem entries_rebalanceStep (t : AVL α β) :
    entries (rebalanceStep t) = entries t := by
  cases t with
  | nil => rfl
  | node l k v h r =>
    simp only [rebalanceStep]
    split
    · cases l with
      | nil => simp [entries_updH, entries]
      | node ll lk lv lh lr =>
        by_cases hx : height lr ≤ height ll
        · simp [hx, entries_updH, entries, List.append_assoc]
        · cases lr with
          | nil => simp [hx, entries_updH, entries]
          | node lrl lrk lrv lrh lrr =>
            simp [hx, entries_updH, entries, List.append_assoc]
    · split
      · cases r with
        | nil => simp [entries_updH, entries]
        | node rl rk rv rh rr =>
          by_cases hx : height rr ≤ height rl
          · cases rl with
            | nil => simp [hx, entries_updH, entries]
            | node rll rlk rlv rlh rlr =>
              simp [hx, entries_updH, entries, List.append_assoc]
          · simp [hx, entries_updH, entries, List.append_assoc]
      · simp [entries_updH, entries]

theorem entries_rebalanceAvl (t : AVL α β) (ctx : Ctx α β) :
    entries (rebalanceAvl t ctx) = ctxL ctx ++ entries t ++ ctxR ctx := by
  induction ctx generalizing t with
  | nil => simp [rebalanceAvl, entries_rebalanceStep, ctxL, ctxR]
  | cons f ctx ih =>
    obtain ⟨d, k, v, h, sib⟩ := f
    simp only [rebalanceAvl]
    split
    · rw [entries_zipUp, entries_rebalanceStep]
    · cases d <;>
        simp [ih, attach, entries, entries_rebalanceStep, ctxL, ctxR,
          List.append_assoc]

theorem entries_spliceUp (c : AVL α β) (ctx : Ctx α β) :
    entries (spliceUp c ctx) = ctxL ctx ++ entries c ++ ctxR ctx := by
  cases ctx with
  | nil => simp [spliceUp, ctxL, ctxR]
  | cons f ctx =>
    obtain ⟨d, k, v, h, sib⟩ := f
    cases d <;>
      simp [spliceUp, entries_rebalanceAvl, attach, entries, ctxL, ctxR,
        List.append_assoc]

theorem downLeft_spec [Inhabited α] [Inhabited β] (t : AVL α β)
    (hne : t ≠ .nil) (acc : Ctx α β) :
    ctxL (downLeft t acc).2.2.2 = ctxL acc ∧
      entries t ++ ctxR acc =
        ((downLeft t acc).1, (downLeft t acc).2.1) ::
          (entries (downLeft t acc).2.2.1 ++ ctxR (downLeft t acc).2.2.2) := by
  induction t generalizing acc with
  | nil => exact absurd rfl hne
  | node l k v h r ihl ihr =>
    cases l with
    | nil => simp [downLeft, entries, ctxR]
    | node ll lk lv lh lr =>
      have ih := ihl (by simp) (⟨.left, k, v, h, r⟩ :: acc)
      simp only [downLeft]
      refine ⟨?_, ?_⟩
      · rw [ih.1]; rfl
      · have h2 := ih.2
        simp only [ctxR, entries] at h2 ⊢
        rw [List.append_assoc, ← h2]
        simp [List.append_assoc]

/-! ### The binary-search-tree invariant -/

/-- Keys of a subtree, in in-order. -/
def keysOf (t : AVL α β) : List α := keysL (entries t)

/-- The search-tree invariant: the in-order keys are strictly
increasing. -/
def sortedKeys [LinearOrder α] (t : AVL α β) : Prop :=
  (keysOf t).Sorted (· < ·)

theorem sortedKeys_node [LinearOrder α] {l : AVL α β} {k : α} {v : β}
    {h : Nat} {r : AVL α β} :
    sortedKeys (.node l k v h r) ↔
      sortedKeys l ∧ sortedKeys r ∧ (∀ a ∈ keysOf l, a < k) ∧
        (∀ b ∈ keysOf r, k < b) := by
  unfold sortedKeys keysOf keysL
  simp only [entries, List.map_append, List.map_cons]
  constructor
  · intro hs
    rw [List.Sorted, List.pairwise_append] at hs
    obtain ⟨h1, h2, h3⟩ := hs
    rw [List.pairwise_cons] at h2
    exact ⟨h1, h2.2, fun a ha => h3 a ha k (by simp), h2.1⟩
  · rintro ⟨h1, h2, h3, h4⟩
    rw [List.Sorted, List.pairwise_append]
    refine ⟨h1, ?_, ?_⟩
    · rw [List.pairwise_cons]; exact ⟨h4, h2⟩
    · intro a ha b hb
      rcases List.mem_cons.mp hb with hb | hb
      · subst hb; exact h3 a ha
      · exact lt_trans (h3 a ha) (h4 b hb)

theorem entries_putGo [LinearOrder α] (t : AVL α β) (k : α) (v : β)
    (ctx : Ctx α β) (hs : sortedKeys t) :
    entries (putGo t k v ctx).1 = ctxL ctx ++ insList (entries t) k v ++ ctxR ctx := by
  induction t generalizing ctx with
  | nil => simp [putGo, entries_rebalanceAvl, entries, insList]
  | node l k0 v0 h r ihl ihr =>
    rw [sortedKeys_node] at hs
    obtain ⟨hsl, hsr, hbl, hbr⟩ := hs
    by_cases h1 : k = k0
    · subst h1
      have heq : insList (entries l ++ (k, v0) :: entries r) k v =
          entries l ++ (k, v) :: entries r := by
        rw [insList_append_keys_lt _ _ _ _ hbl]
        simp [insList]
      simp [putGo, entries_zipUp, entries, heq]
    · by_cases h2 : k < k0
      · have heq := insList_append_lt (entries l) (entries r) k v (k0, v0) h2
        simp only [putGo, if_neg h1, if_pos h2]
        rw [ihl (⟨.left, k0, v0, h, r⟩ :: ctx) hsl]
        simp [ctxL, ctxR, entries, heq, List.append_assoc]
      · have hk0 : k0 < k := by
          rcases lt_trichotomy k k0 with hlt | heqq | hgt
          · exact absurd hlt h2
          · exact absurd heqq h1
          · exact hgt
        have heq : insList (entries l ++ (k0, v0) :: entries r) k v =
            entries l ++ (k0, v0) :: insList (entries r) k v := by
          rw [insList_append_keys_lt _ _ _ _
            (fun a ha => lt_trans (hbl a ha) hk0)]
          simp [insList, h1, h2]
        simp only [putGo, if_neg h1, if_neg h2]
        rw [ihr (⟨.right, k0, v0, h, l⟩ :: ctx) hsr]
        simp [ctxL, ctxR, entries, heq, List.append_assoc]

theorem entries_removeGo [LinearOrder α] [Inhabited α] [Inhabited β]
    (t : AVL α β) (k : α) (ctx : Ctx α β) (hs : sortedKeys t) :
    entries (removeGo t k ctx).1 = ctxL ctx ++ delList (entries t) k ++ ctxR ctx := by
  induction t generalizing ctx with
  | nil => simp [removeGo, entries_zipUp, entries, delList]
  | node l k0 v0 h r ihl ihr =>
    rw [sortedKeys_node] at hs
    obtain ⟨hsl, hsr, hbl, hbr⟩ := hs
    have hknotl : k = k0 → k ∉ keysL (entries l) := by
      intro hk hmem
      exact absurd (hbl k hmem) (by simp [hk])
    by_cases h1 : k = k0
    · subst h1
      cases l with
      | nil =>
        simp [removeGo, entries_spliceUp, delList, entries]
      | node al ak av ah ar =>
        have hdel : delList
            (entries (AVL.node al ak av ah ar) ++ (k, v0) :: entries r) k =
            entries (AVL.node al ak av ah ar) ++ entries r :=
          delList_boundary _ _ _ _ (hknotl rfl)
        cases r with
        | nil =>
          simp only [entries, List.append_nil, List.append_assoc,
            List.cons_append] at hdel
          simp [removeGo, entries_spliceUp, entries, hdel]
        | node bl bk bv bh br =>
          have hrne : (AVL.node bl bk bv bh br : AVL α β) ≠ .nil := by simp
          have hd := downLeft_spec (AVL.node bl bk bv bh br) hrne []
          rcases hdl : downLeft (AVL.node bl bk bv bh br) ([] : Ctx α β)
            with ⟨sk, sv, repl, rel⟩
          rw [hdl] at hd
          simp only [ctxR, ctxL, List.append_nil] at hd
          simp only [removeGo, if_pos rfl, hdl, if_true]
          rw [entries_spliceUp, ctxL_append, ctxR_append, hd.1]
          rw [hd.2] at hdel
          simp only [entries, List.append_assoc, List.cons_append] at hdel
          have hd2n : entries bl ++ (bk, bv) :: entries br =
              (sk, sv) :: (entries repl ++ ctxR rel) := by
            simpa [entries] using hd.2
          simp [ctxL, ctxR, entries, List.append_assoc, hd2n, hdel]
    · by_cases h2 : k < k0
      · have hdel : delList (entries l ++ (k0, v0) :: entries r) k =
            delList (entries l) k ++ (k0, v0) :: entries r := by
          apply delList_append_not_mem_right
          intro hmem
          rcases List.mem_cons.mp (by simpa [keysL_cons] using hmem) with hx | hx
          · exact h1 hx
          · exact absurd (hbr k hx) (by intro hgt; exact absurd (lt_trans h2 hgt) (lt_irrefl k))
        simp only [removeGo, if_neg h1, if_pos h2]
        rw [ihl (⟨.left, k0, v0, h, r⟩ :: ctx) hsl]
        simp [ctxL, ctxR, entries, hdel, List.append_assoc]
      · have hk0 : k0 < k := by
          rcases lt_trichotomy k k0 with hlt | heqq | hgt
          · exact absurd hlt h2
          · exact absurd heqq h1
          · exact hgt
        have hdel : delList (entries l ++ (k0, v0) :: entries r) k =
            entries l ++ (k0, v0) :: delList (entries r) k := by
          rw [delList_append_not_mem_left _ _ _
            (fun hmem => absurd (hbl k hmem) (by simp [not_lt, le_of_lt hk0]))]
          simp [delList, h1]
        simp only [removeGo, if_neg h1, if_neg h2]
        rw [ihr (⟨.right, k0, v0, h, l⟩ :: ctx) hsr]
        simp [ctxL, ctxR, entries, hdel, List.append_assoc]

theorem sorted_insList [LinearOrder α] (xs : List (α × β)) (k : α) (v : β)
    (hs : (keysL xs).Sorted (· < ·)) :
    (keysL (insList xs k v)).Sorted (· < ·) := by
  induction xs with
  | nil => simp [insList, keysL, List.Sorted]
  | cons f tl ih =>
    obtain ⟨k0, v0⟩ := f
    rw [keysL_cons, List.sorted_cons] at hs
    by_cases h1 : k < k0
    · simp only [insList, if_pos h1, keysL_cons, List.sorted_cons]
      refine ⟨?_, hs.1, hs.2⟩
      intro b hb
      rcases List.mem_cons.mp hb with hb | hb
      · simpa [hb] using h1
      · exact lt_trans h1 (hs.1 b hb)
    · by_cases h2 : k = k0
      · subst h2
        simp only [insList, if_neg h1, if_pos rfl, if_true, keysL_cons,
          List.sorted_cons]
        simpa using hs
      · simp only [insList, if_neg h1, if_neg h2, keysL_cons, List.sorted_cons]
        refine ⟨?_, ih hs.2⟩
        intro b hb
        rcases (mem_keysL_insList tl k b v).mp hb with hb | hb
        · subst hb
          rcases lt_trichotomy b k0 with hx | hx | hx
          · exact absurd hx h1
          · exact absurd hx h2
          · exact hx
        · exact hs.1 b hb

theorem sorted_delList [LinearOrder α] (xs : List (α × β)) (k : α)
    (hs : (keysL xs).Sorted (· < ·)) :
    (keysL (delList xs k)).Sorted (· < ·) :=
  List.Pairwise.sublist ((delList_sublist xs k).map Prod.fst) hs

theorem lookupL_append (xs ys : List (α × β)) [DecidableEq α] (k : α) :
    lookupL (xs ++ ys) k =
      match lookupL xs k with
      | some v => some v
      | none => lookupL ys k := by
  induction xs with
  | nil => simp [lookupL]
  | cons f tl ih =>
    obtain ⟨k0, v0⟩ := f
    by_cases h1 : k = k0
    · simp [lookupL, h1]
    · simp [lookupL, h1, ih]

theorem getA_eq_lookupL [LinearOrder α] (t : AVL α β) (k : α)
    (hs : sortedKeys t) : getA t k = lookupL (entries t) k := by
  induction t with
  | nil => rfl
  | node l k0 v0 h r ihl ihr =>
    rw [sortedKeys_node] at hs
    obtain ⟨hsl, hsr, hbl, hbr⟩ := hs
    by_cases h1 : k = k0
    · subst h1
      have hnl : k ∉ keysL (entries l) := fun hm => absurd (hbl k hm) (lt_irrefl k)
      simp [getA, entries, lookupL_append_not_mem _ _ _ hnl, lookupL]
    · by_cases h2 : k < k0
      · have hnr : lookupL (entries r) k = none := by
          rw [lookupL_eq_none_iff]
          intro hm
          exact absurd (lt_trans h2 (hbr k hm)) (lt_irrefl k)
        simp only [getA, if_neg h1, if_pos h2, entries, lookupL_append]
        rw [ihl hsl]
        cases hel : lookupL (entries l) k with
        | some b => simp
        | none => simp [lookupL, h1, hnr]
      · have hnl : lookupL (entries l) k = none := by
          rw [lookupL_eq_none_iff]
          intro hm
          have := hbl k hm
          exact absurd this h2
        simp only [getA, if_neg h1, if_neg h2, entries, lookupL_append, hnl]
        rw [ihr hsr]
        simp [lookupL, h1]

/-! ### Map-level behaviour of put, remove, get -/

/-- Well-formedness of an `AVLTreeMap`: its tree is a search tree. -/
def AVLTreeMap.Wfm [LinearOrder α] (m : AVLTreeMap α β) : Prop :=
  sortedKeys m.tree

theorem AVLTreeMap.Wfm_empty [LinearOrder α] :
    (AVLTreeMap.empty : AVLTreeMap α β).Wfm := by
  simp [AVLTreeMap.Wfm, AVLTreeMap.empty, sortedKeys, keysOf, entries, keysL]

theorem tree_put [LinearOrder α] (m : AVLTreeMap α β) (k : α) (v : β) :
    ((m.put k v).1).tree = (putGo m.tree k v []).1 := by
  rcases h : putGo m.tree k v [] with ⟨t, old⟩
  simp [AVLTreeMap.put, h]

theorem tree_remove [LinearOrder α] [Inhabited α] [Inhabited β]
    (m : AVLTreeMap α β) (k : α) :
    ((m.remove k).1).tree = (removeGo m.tree k []).1 := by
  rcases h : removeGo m.tree k [] with ⟨t, old⟩
  simp [AVLTreeMap.remove, h]

theorem entries_put [LinearOrder α] (m : AVLTreeMap α β) (k : α) (v : β)
    (hw : m.Wfm) :
    entries ((m.put k v).1).tree = insList (entries m.tree) k v := by
  rw [tree_put, entries_putGo _ _ _ _ hw]
  simp [ctxL, ctxR]

theorem entries_remove [LinearOrder α] [Inhabited α] [Inhabited β]
    (m : AVLTreeMap α β) (k : α) (hw : m.Wfm) :
    entries ((m.remove k).1).tree = delList (entries m.tree) k := by
  rw [tree_remove, entries_removeGo _ _ _ hw]
  simp [ctxL, ctxR]

theorem Wfm_put [LinearOrder α] (m : AVLTreeMap α β) (k : α) (v : β)
    (hw : m.Wfm) : ((m.put k v).1).Wfm := by
  unfold AVLTreeMap.Wfm sortedKeys keysOf at hw ⊢
  rw [entries_put m k v hw]
  exact sorted_insList _ _ _ hw

theorem Wfm_remove [LinearOrder α] [Inhabited α] [Inhabited β]
    (m : AVLTreeMap α β) (k : α) (hw : m.Wfm) : ((m.remove k).1).Wfm := by
  unfold AVLTreeMap.Wfm sortedKeys keysOf at hw ⊢
  rw [entries_remove m k hw]
  exact sorted_delList _ _ hw

theorem get_put [LinearOrder α] (m : AVLTreeMap α β) (k a : α) (v : β)
    (hw : m.Wfm) :
    ((m.put k v).1).get a = if a = k then some v else m.get a := by
  unfold AVLTreeMap.get
  rw [getA_eq_lookupL _ _ (Wfm_put m k v hw), getA_eq_lookupL _ _ hw,
    entries_put m k v hw, lookupL_insList]

theorem nodup_keysOf [LinearOrder α] (t : AVL α β) (hs : sortedKeys t) :
    (keysOf t).Nodup := hs.nodup

theorem get_remove [LinearOrder α] [Inhabited α] [Inhabited β]
    (m : AVLTreeMap α β) (k a : α) (hw : m.Wfm) :
    ((m.remove k).1).get a = if a = k then none else m.get a := by
  unfold AVLTreeMap.get
  rw [getA_eq_lookupL _ _ (Wfm_remove m k hw), getA_eq_lookupL _ _ hw,
    entries_remove m k hw]
  by_cases h1 : a = k
  · subst h1
    simp [lookupL_delList_self _ _ (nodup_keysOf _ hw)]
  · simp [h1, lookupL_delList_ne _ _ _ h1]

theorem mem_keysList_iff_get [LinearOrder α] (m : AVLTreeMap α β) (k : α)
    (hw : m.Wfm) : k ∈ m.keysList ↔ (m.get k).isSome := by
  have : m.keysList = keysL (entries m.tree) := rfl
  rw [this, AVLTreeMap.get, getA_eq_lookupL _ _ hw]
  cases hx : lookupL (entries m.tree) k with
  | none => simpa [hx] using (lookupL_eq_none_iff (entries m.tree) k).mp hx
  | some b =>
    simp only [Option.isSome_some, iff_true]
    by_contra hmem
    rw [← lookupL_eq_none_iff (entries m.tree) k] at hmem
    rw [hmem] at hx
    cases hx

/-! ### sub_map characterization -/

theorem seekEntries_eq_filter [LinearOrder α] (t : AVL α β) (k1 : α)
    (hs : sortedKeys t) :
    seekEntries t k1 = (entries t).filter (fun e => decide (k1 ≤ e.1)) := by
  induction t with
  | nil => rfl
  | node l k v h r ihl ihr =>
    rw [sortedKeys_node] at hs
    obtain ⟨hsl, hsr, hbl, hbr⟩ := hs
    by_cases h1 : k1 ≤ k
    · have hfr : (entries r).filter (fun e => decide (k1 ≤ e.1)) = entries r := by
        rw [List.filter_eq_self]
        intro e he
        have : k < e.1 := hbr e.1 (List.mem_map_of_mem Prod.fst he)
        simp [le_of_lt (lt_of_le_of_lt h1 this)]
      simp [seekEntries, h1, entries, ihl hsl, List.filter_append, hfr]
    · have hfl : (entries l).filter (fun e => decide (k1 ≤ e.1)) = [] := by
        rw [List.filter_eq_nil_iff]
        intro e he
        have hlt : e.1 < k := hbl e.1 (List.mem_map_of_mem Prod.fst he)
        simp only [decide_eq_true_eq]
        intro hle
        exact h1 (le_trans hle (le_of_lt hlt))
      simp [seekEntries, h1, entries, ihr hsr, List.filter_append, hfl]

theorem takeWhile_eq_filter_of_sorted [LinearOrder α]
    (xs : List (α × β)) (k2 : α) (hs : (keysL xs).Sorted (· < ·)) :
    xs.takeWhile (fun e => decide (e.1 < k2)) =
      xs.filter (fun e => decide (e.1 < k2)) := by
  induction xs with
  | nil => rfl
  | cons e tl ih =>
    rw [keysL_cons, List.sorted_cons] at hs
    by_cases h1 : e.1 < k2
    · simp [List.takeWhile_cons, List.filter_cons, h1, ih hs.2]
    · have hf : tl.filter (fun e => decide (e.1 < k2)) = [] := by
        rw [List.filter_eq_nil_iff]
        intro a ha
        have : e.1 < a.1 := hs.1 a.1 (List.mem_map_of_mem Prod.fst ha)
        simp only [decide_eq_true_eq]
        intro hlt
        exact h1 (lt_trans this hlt)
      simp [List.takeWhile_cons, List.filter_cons, h1, hf]

theorem subMap_eq_filter [LinearOrder α] (m : AVLTreeMap α β) (k1 k2 : α)
    (hw : m.Wfm) :
    m.subMap k1 k2 =
      ((entries m.tree).filter
        (fun e => decide (k1 ≤ e.1) && decide (e.1 < k2))).map Prod.snd := by
  unfold AVLTreeMap.subMap
  rw [seekEntries_eq_filter _ _ hw]
  rw [takeWhile_eq_filter_of_sorted]
  · rw [List.filter_filter]
    congr 1
    apply List.filter_congr
    intro e he
    simp [Bool.and_comm]
  · have : keysL ((entries m.tree).filter (fun e => decide (k1 ≤ e.1))) =
        (keysOf m.tree).filter (fun a => decide (k1 ≤ a)) := by
      simp only [keysL, keysOf]
      rw [List.filter_map]
      rfl
    rw [this]
    exact List.Pairwise.sublist (List.filter_sublist _) hw

/-! ### Model of an operation sequence -/

/-- The value a plain finite-map model associates with each key after
one operation. -/
def modelStep [DecidableEq α] (f : α → Option β) : MapOp α β → α → Option β
  | .put kk vv => fun k => if k = kk then some vv else f k
  | .remove kk => fun k => if k = kk then none else f k

/-- The model map after a whole operation sequence. -/
def modelGet [DecidableEq α] (ops : List (MapOp α β)) : α → Option β :=
  ops.foldl modelStep (fun _ => none)

theorem applyMapOps_spec [LinearOrder α] [Inhabited α] [Inhabited β]
    (ops : List (MapOp α β)) (m : AVLTreeMap α β) (f : α → Option β)
    (hw : m.Wfm) (hf : ∀ k, m.get k = f k) :
    (ops.foldl applyMapOp m).Wfm ∧
      ∀ k, (ops.foldl applyMapOp m).get k = ops.foldl modelStep f k := by
  induction ops generalizing m f with
  | nil => exact ⟨hw, hf⟩
  | cons op ops ih =>
    cases op with
    | put kk vv =>
      refine ih ((m.put kk vv).1) (modelStep f (.put kk vv)) (Wfm_put m kk vv hw) ?_
      intro k
      rw [get_put m kk k vv hw, modelStep]
      by_cases h1 : k = kk <;> simp [h1, hf]
    | remove kk =>
      refine ih ((m.remove kk).1) (modelStep f (.remove kk)) (Wfm_remove m kk hw) ?_
      intro k
      rw [get_remove m kk k hw, modelStep]
      by_cases h1 : k = kk <;> simp [h1, hf]

theorem applyMapOps_Wfm [LinearOrder α] [Inhabited α] [Inhabited β]
    (ops : List (MapOp α β)) : (applyMapOps ops).Wfm :=
  (applyMapOps_spec ops .empty (fun _ => none) AVLTreeMap.Wfm_empty
    (fun _ => rfl)).1

theorem applyMapOps_get [LinearOrder α] [Inhabited α] [Inhabited β]
    (ops : List (MapOp α β)) (k : α) :
    (applyMapOps ops).get k = modelGet ops k :=
  (applyMapOps_spec ops .empty (fun _ => none) AVLTreeMap.Wfm_empty
    (fun _ => rfl)).2 k

/-! ### Claims about the AVL tree map -/

/-- Operation sequence exhibiting the broken deletion tie-break: the
eight `put`s build a balanced tree whose root 10 has left subtree
5-over-3 (height 2) and right subtree 20 with equal-height children
15-over-13 and 30-over-25; removing 3 unbalances the root, and
`_taller_child(20)` resolves the tie between 15 and 30 to the left
child 15, forcing a double rotation where a single rotation was
required. -/
def avlDemoOps : List (MapOp Int Int) :=
  [.put 10 0, .put 5 0, .put 20 0, .put 3 0, .put 15 0, .put 30 0,
   .put 13 0, .put 25 0, .remove 3]

/-- C1: the claim that after every sequence of put and remove
operations every node of the tree satisfies the AVL balance condition
(with correct cached heights) is FALSE of the code: after `avlDemoOps`
the tree fails the per-node check — the node keyed 20 ends with child
subtree heights 0 and 2. -/
theorem c1_avl_balance_fails_on_remove :
    avlOkB (applyMapOps avlDemoOps).tree = false := by rfl

/-- C2: for every sequence of put and remove operations on an
`AVLTreeMap`, the in-order key iteration (`__iter__`) is strictly
increasing, and each key appears exactly once iff it is live (put at
some point and not removed since), zero times otherwise. -/
theorem c2_inorder_sorted_each_live_key_once [LinearOrder α] [Inhabited α]
    [Inhabited β] (ops : List (MapOp α β)) :
    ((applyMapOps ops).keysList).Sorted (· < ·) ∧
      ∀ k, ((applyMapOps ops).keysList).count k =
        if (modelGet ops k).isSome then 1 else 0 := by
  have hw := applyMapOps_Wfm ops
  refine ⟨hw, ?_⟩
  intro k
  have hmem : k ∈ (applyMapOps ops).keysList ↔ (modelGet ops k).isSome := by
    rw [mem_keysList_iff_get _ _ hw, applyMapOps_get]
  have hnd : ((applyMapOps ops).keysList).Nodup := hw.nodup
  by_cases hk : (modelGet ops k).isSome
  · rw [if_pos hk]
    exact List.count_eq_one_of_mem hnd (hmem.mpr hk)
  · rw [if_neg hk]
    exact List.count_eq_zero_of_not_mem (fun hm => hk (hmem.mp hm))

/-- C3: for every `AVLTreeMap` reached by put and remove operations,
`sub_map k1 k2` yields exactly the values whose keys k satisfy
`k1 ≤ k < k2`, in ascending key order (the in-order entry sequence
filtered to the half-open window), and in particular yields nothing
when `k2 ≤ k1`. -/
theorem c3_subMap_range [LinearOrder α] [Inhabited α] [Inhabited β]
    (ops : List (MapOp α β)) (k1 k2 : α) :
    (applyMapOps ops).subMap k1 k2 =
      ((entries (applyMapOps ops).tree).filter
        (fun e => decide (k1 ≤ e.1) && decide (e.1 < k2))).map Prod.snd ∧
      (k2 ≤ k1 → (applyMapOps ops).subMap k1 k2 = []) := by
  have hmain := subMap_eq_filter (applyMapOps ops) k1 k2 (applyMapOps_Wfm ops)
  refine ⟨hmain, ?_⟩
  intro hk
  rw [hmain]
  have hnil : (entries (applyMapOps ops).tree).filter
      (fun e => decide (k1 ≤ e.1) && decide (e.1 < k2)) = [] := by
    rw [List.filter_eq_nil_iff]
    intro e he
    simp only [Bool.and_eq_true, decide_eq_true_eq, not_and]
    intro hge hlt
    exact absurd (lt_of_lt_of_le hlt hk) (not_lt_of_ge hge)
  simp [hnil]

/-! ### The record store (`core/storage.py`)

Python floats become rationals, absent dict fields become `Option`
values; the record ids kept in index buckets are naturals.  The
`isinstance(current, list)` branches of the Python index helpers never
see a bare id, since every `put` stores a list, so buckets are plain
`List Nat`. -/

/-- One stored transaction record (the dict built by the store's
callers; only the fields the store, graph and analytics read). -/
structure Record where
  timestamp : Int
  token : Option String
  wallet_from : Option String
  wallet_to : Option String
  volume : Option ℚ
  price : Option ℚ
  status : Option String
deriving Repr, DecidableEq

/-- `CryptoDB` state. -/
structure CryptoDB where
  data_store : List (Option Record)
  timestamp_index : AVLTreeMap Int (List Nat)
  token_index : AVLTreeMap String (List Nat)
  wallet_from_index : AVLTreeMap String (List Nat)
  next_record_id : Nat
  active_records : Nat
deriving Repr

/-- `CryptoDB.__init__`. -/
def CryptoDB.empty : CryptoDB := ⟨[], .empty, .empty, .empty, 0, 0⟩

/-- The bucket stored at a key, empty when the key is absent. -/
def bucketOf [LinearOrder κ] (idx : AVLTreeMap κ (List Nat)) (k : κ) :
    List Nat :=
  (idx.get k).getD []

/-- Core of `_add_to_timestamp_index` and `_add_to_index` at a present
key: append the id to the key's bucket, creating the bucket if the key
is absent. -/
def addIdxK [LinearOrder κ] (idx : AVLTreeMap κ (List Nat)) (k : κ)
    (rid : Nat) : AVLTreeMap κ (List Nat) :=
  match idx.get k with
  | none => (idx.put k [rid]).1
  | some bucket => (idx.put k (bucket ++ [rid])).1

/-- Core of `_remove_from_timestamp_index` and `_remove_from_index` at
a present key: drop the first occurrence of the id (`list.remove`, a
no-op if absent via the caught `ValueError`), writing the shrunk bucket
back or removing the key if the bucket emptied. -/
def remIdxK [LinearOrder κ] [Inhabited κ] (idx : AVLTreeMap κ (List Nat))
    (k : κ) (rid : Nat) : AVLTreeMap κ (List Nat) :=
  match idx.get k with
  | none => idx
  | some bucket =>
    if rid ∈ bucket then
      let b2 := bucket.erase rid
      if b2.isEmpty then (idx.remove k).1 else (idx.put k b2).1
    else idx

/-- `CryptoDB._add_to_index`: skip a `None` key, else append to the
key's bucket (stated generically; the store instantiates it at
`String` keys). -/
def addIdxO [LinearOrder κ] (idx : AVLTreeMap κ (List Nat))
    (key : Option κ) (rid : Nat) : AVLTreeMap κ (List Nat) :=
  match key with
  | none => idx
  | some k => addIdxK idx k rid

/-- `CryptoDB._remove_from_index`: skip a `None` key, else drop the id
from the key's bucket. -/
def remIdxO [LinearOrder κ] [Inhabited κ] (idx : AVLTreeMap κ (List Nat))
    (key : Option κ) (rid : Nat) : AVLTreeMap κ (List Nat) :=
  match key with
  | none => idx
  | some k => remIdxK idx k rid

/-- `CryptoDB.insert_record` (the record carries its timestamp, so the
`ValueError` branch for a missing timestamp cannot fire). -/
def CryptoDB.insertRecord (db : CryptoDB) (record : Record) :
    CryptoDB × Nat :=
  let rid := db.next_record_id
  ({ data_store := db.data_store ++ [some record],
     timestamp_index := addIdxK db.timestamp_index record.timestamp rid,
     token_index := addIdxO db.token_index record.token rid,
     wallet_from_index := addIdxO db.wallet_from_index record.wallet_from rid,
     next_record_id := rid + 1,
     active_records := db.active_records + 1 }, rid)

/-- `CryptoDB.delete_record`: fails (state unchanged) on an
out-of-range id or a tombstoned slot; otherwise removes the id from all
three indexes, tombstones the slot, and decrements the active count
(`max(0, n-1)` is natural subtraction). -/
def CryptoDB.deleteRecord (db : CryptoDB) (rid : Nat) : CryptoDB × Bool :=
  match db.data_store[rid]? with
  | some (some record) =>
    ({ db with
       data_store := db.data_store.set rid none,
       timestamp_index := remIdxK db.timestamp_index record.timestamp rid,
       token_index := remIdxO db.token_index record.token rid,
       wallet_from_index :=
         remIdxO db.wallet_from_index record.wallet_from rid,
       active_records := db.active_records - 1 }, true)
  | _ => (db, false)

/-- A partial update dict for `update_record`: `none` means the field
is absent from `updates`, `some x` overwrites the field with `x`. -/
structure RecUpdates where
  timestamp : Option Int := none
  token : Option (Option String) := none
  wallet_from : Option (Option String) := none
  wallet_to : Option (Option String) := none
  volume : Option (Option ℚ) := none
  price : Option (Option ℚ) := none
  status : Option (Option String) := none
deriving Repr

/-- `record.update(updates)` plus the explicit reassignment of the
three indexed fields. -/
def applyUpdates (r : Record) (u : RecUpdates) : Record :=
  { timestamp := u.timestamp.getD r.timestamp,
    token := u.token.getD r.token,
    wallet_from := u.wallet_from.getD r.wallet_from,
    wallet_to := u.wallet_to.getD r.wallet_to,
    volume := u.volume.getD r.volume,
    price := u.price.getD r.price,
    status := u.status.getD r.status }

/-- `CryptoDB.update_record`: fails on an invalid or tombstoned id;
otherwise rewrites the slot and, for each indexed field whose value
changed, removes the id from the old bucket and adds it to the new. -/
def CryptoDB.updateRecord (db : CryptoDB) (rid : Nat) (u : RecUpdates) :
    CryptoDB × Bool :=
  match db.data_store[rid]? with
  | some (some record) =>
    let newRec := applyUpdates record u
    let ti :=
      if newRec.timestamp ≠ record.timestamp then
        addIdxK (remIdxK db.timestamp_index record.timestamp rid)
          newRec.timestamp rid
      else db.timestamp_index
    let toki :=
      if newRec.token ≠ record.token then
        addIdxO (remIdxO db.token_index record.token rid)
          newRec.token rid
      else db.token_index
    let wi :=
      if newRec.wallet_from ≠ record.wallet_from then
        addIdxO (remIdxO db.wallet_from_index record.wallet_from rid)
          newRec.wallet_from rid
      else db.wallet_from_index
    ({ db with
       data_store := db.data_store.set rid (some newRec),
       timestamp_index := ti, token_index := toki,
       wallet_from_index := wi }, true)
  | _ => (db, false)

/-- One mutating store operation. -/
inductive DbOp where
  | ins (r : Record) : DbOp
  | del (rid : Nat) : DbOp
  | upd (rid : Nat) (u : RecUpdates) : DbOp

/-- Apply one operation, keeping the resulting store. -/
def applyDbOp (db : CryptoDB) : DbOp → CryptoDB
  | .ins r => (db.insertRecord r).1
  | .del rid => (db.deleteRecord rid).1
  | .upd rid u => (db.updateRecord rid u).1

/-- Run operations from an arbitrary starting state. -/
def applyDbOpsFrom (db : CryptoDB) (ops : List DbOp) : CryptoDB :=
  ops.foldl applyDbOp db

/-- Run operations against a freshly constructed store. -/
def applyDbOps (ops : List DbOp) : CryptoDB :=
  applyDbOpsFrom .empty ops

/-- Number of non-tombstoned slots. -/
def liveCount (l : List (Option Record)) : Nat :=
  l.countP (fun o => o.isSome)

/-! ### Behaviour of the index helpers on buckets -/

theorem bucketOf_addIdxK [LinearOrder κ] (idx : AVLTreeMap κ (List Nat))
    (k : κ) (rid : Nat) (hw : idx.Wfm) (a : κ) :
    bucketOf (addIdxK idx k rid) a =
      if a = k then bucketOf idx k ++ [rid] else bucketOf idx a := by
  unfold addIdxK bucketOf
  cases hg : idx.get k with
  | none =>
    rw [get_put _ _ _ _ hw]
    by_cases h1 : a = k <;> simp [h1, hg]
  | some bucket =>
    rw [get_put _ _ _ _ hw]
    by_cases h1 : a = k <;> simp [h1, hg]

theorem Wfm_addIdxK [LinearOrder κ] (idx : AVLTreeMap κ (List Nat))
    (k : κ) (rid : Nat) (hw : idx.Wfm) : (addIdxK idx k rid).Wfm := by
  unfold addIdxK
  cases idx.get k with
  | none => exact Wfm_put _ _ _ hw
  | some bucket => exact Wfm_put _ _ _ hw

theorem bucketOf_remIdxK [LinearOrder κ] [Inhabited κ]
    (idx : AVLTreeMap κ (List Nat)) (k : κ) (rid : Nat) (hw : idx.Wfm)
    (a : κ) :
    bucketOf (remIdxK idx k rid) a =
      if a = k then (bucketOf idx k).erase rid else bucketOf idx a := by
  unfold remIdxK bucketOf
  cases hg : idx.get k with
  | none =>
    by_cases h1 : a = k <;> simp [h1, hg, List.erase]
  | some bucket =>
    dsimp only
    by_cases hmem : rid ∈ bucket
    · by_cases hemp : (bucket.erase rid).isEmpty
      · rw [if_pos hmem, if_pos hemp, get_remove _ _ _ hw]
        by_cases h1 : a = k
        · simp [h1, hg, List.isEmpty_iff.mp hemp]
        · simp [h1]
      · rw [if_pos hmem, if_neg hemp, get_put _ _ _ _ hw]
        by_cases h1 : a = k <;> simp [h1, hg]
    · rw [if_neg hmem]
      by_cases h1 : a = k
      · simp [h1, hg, List.erase_of_not_mem hmem]
      · simp [h1]

theorem Wfm_remIdxK [LinearOrder κ] [Inhabited κ]
    (idx : AVLTreeMap κ (List Nat)) (k : κ) (rid : Nat) (hw : idx.Wfm) :
    (remIdxK idx k rid).Wfm := by
  unfold remIdxK
  cases idx.get k with
  | none => exact hw
  | some bucket =>
    dsimp only
    by_cases hmem : rid ∈ bucket
    · by_cases hemp : ((bucket.erase rid).isEmpty : Bool)
      · rw [if_pos hmem, if_pos hemp]
        exact Wfm_remove _ _ hw
      · rw [if_pos hmem, if_neg hemp]
        exact Wfm_put _ _ _ hw
    · rw [if_neg hmem]
      exact hw

/-! ### Per-index invariant

An index is consistent with a key assignment `keyAt` (mapping each id
to the indexed key of its live record, or `none`) when every bucket
holds each id exactly as often as the assignment demands: once in the
bucket of its key, nowhere else, and tombstoned or unissued ids appear
in no bucket at all. -/

/-- Pointwise update of a key assignment at one id. -/
def updAt (f : Nat → Option κ) (rid : Nat) (v : Option κ) :
    Nat → Option κ :=
  fun x => if x = rid then v else f x

/-- Index/assignment consistency. -/
def IdxInv [LinearOrder κ] (idx : AVLTreeMap κ (List Nat))
    (keyAt : Nat → Option κ) : Prop :=
  idx.Wfm ∧ ∀ rid k, (bucketOf idx k).count rid =
    if keyAt rid = some k then 1 else 0

theorem IdxInv_congr [LinearOrder κ] (idx : AVLTreeMap κ (List Nat))
    (f g : Nat → Option κ) (h : IdxInv idx f) (hfg : ∀ x, f x = g x) :
    IdxInv idx g :=
  ⟨h.1, fun rid k => by rw [← hfg rid]; exact h.2 rid k⟩

theorem bucketOf_addIdxO [LinearOrder κ] (idx : AVLTreeMap κ (List Nat))
    (key : Option κ) (rid : Nat) (hw : idx.Wfm) (a : κ) :
    bucketOf (addIdxO idx key rid) a =
      if some a = key then bucketOf idx a ++ [rid] else bucketOf idx a := by
  cases key with
  | none => simp [addIdxO]
  | some k =>
    rw [addIdxO, bucketOf_addIdxK _ _ _ hw]
    by_cases h1 : a = k
    · simp [h1]
    · simp [h1, fun hh : some a = some k => h1 (Option.some_injective _ hh)]

theorem bucketOf_remIdxO [LinearOrder κ] [Inhabited κ]
    (idx : AVLTreeMap κ (List Nat)) (key : Option κ) (rid : Nat)
    (hw : idx.Wfm) (a : κ) :
    bucketOf (remIdxO idx key rid) a =
      if some a = key then (bucketOf idx a).erase rid
      else bucketOf idx a := by
  cases key with
  | none => simp [remIdxO]
  | some k =>
    rw [remIdxO, bucketOf_remIdxK _ _ _ hw]
    by_cases h1 : a = k
    · simp [h1]
    · simp [h1, fun hh : some a = some k => h1 (Option.some_injective _ hh)]

theorem Wfm_addIdxO [LinearOrder κ] (idx : AVLTreeMap κ (List Nat))
    (key : Option κ) (rid : Nat) (hw : idx.Wfm) : (addIdxO idx key rid).Wfm := by
  cases key with
  | none => exact hw
  | some k => exact Wfm_addIdxK _ _ _ hw

theorem Wfm_remIdxO [LinearOrder κ] [Inhabited κ]
    (idx : AVLTreeMap κ (List Nat)) (key : Option κ) (rid : Nat)
    (hw : idx.Wfm) : (remIdxO idx key rid).Wfm := by
  cases key with
  | none => exact hw
  | some k => exact Wfm_remIdxK _ _ _ hw

theorem IdxInv_add [LinearOrder κ] (idx : AVLTreeMap κ (List Nat))
    (keyAt : Nat → Option κ) (rid : Nat) (key : Option κ)
    (h : IdxInv idx keyAt) (hfresh : keyAt rid = none) :
    IdxInv (addIdxO idx key rid) (updAt keyAt rid key) := by
  refine ⟨Wfm_addIdxO _ _ _ h.1, ?_⟩
  intro x k
  rw [bucketOf_addIdxO _ _ _ h.1]
  by_cases hx : x = rid
  · subst hx
    have h0 : (bucketOf idx k).count x = 0 := by
      rw [h.2 x k, hfresh]
      simp
    by_cases hk : some k = key
    · simp [hk, updAt, List.count_append, h0]
    · simp only [hk, if_false, updAt, if_pos rfl, h0]
      rw [if_neg (fun hh => hk hh.symm)]
  · have hcnt := h.2 x k
    by_cases hk : some k = key
    · simp only [hk, if_true, List.count_append, hcnt, updAt, if_neg hx]
      simp [List.count_singleton, Ne.symm hx, hx]
    · simp [hk, hcnt, updAt, hx]

theorem IdxInv_rem [LinearOrder κ] [Inhabited κ]
    (idx : AVLTreeMap κ (List Nat)) (keyAt : Nat → Option κ) (rid : Nat)
    (h : IdxInv idx keyAt) :
    IdxInv (remIdxO idx (keyAt rid) rid) (updAt keyAt rid none) := by
  refine ⟨Wfm_remIdxO _ _ _ h.1, ?_⟩
  intro x k
  rw [bucketOf_remIdxO _ _ _ h.1]
  by_cases hx : x = rid
  · subst hx
    by_cases hk : some k = keyAt x
    · rw [if_pos hk, List.count_erase_self, h.2 x k, if_pos hk.symm]
      simp [updAt]
    · rw [if_neg hk, h.2 x k, if_neg (fun hh => hk hh.symm)]
      simp [updAt]
  · by_cases hk : some k = keyAt rid
    · rw [if_pos hk, List.count_erase_of_ne hx, h.2 x k]
      simp [updAt, hx]
    · rw [if_neg hk, h.2 x k]
      simp [updAt, hx]

theorem IdxInv_rem_add [LinearOrder κ] [Inhabited κ]
    (idx : AVLTreeMap κ (List Nat)) (keyAt : Nat → Option κ) (rid : Nat)
    (newKey : Option κ) (h : IdxInv idx keyAt) :
    IdxInv (addIdxO (remIdxO idx (keyAt rid) rid) newKey rid)
      (updAt keyAt rid newKey) := by
  have h1 := IdxInv_rem idx keyAt rid h
  have h2 := IdxInv_add _ _ rid newKey h1 (by simp [updAt])
  refine IdxInv_congr _ _ _ h2 ?_
  intro x
  by_cases hx : x = rid <;> simp [updAt, hx]

/-! ### Key assignments read off the data store -/

/-- The timestamp key a live record files its id under. -/
def tsKeyAt (l : List (Option Record)) (rid : Nat) : Option Int :=
  match l[rid]? with
  | some (some r) => some r.timestamp
  | _ => none

/-- The token key a live record files its id under (absent when the
record has no token). -/
def tokKeyAt (l : List (Option Record)) (rid : Nat) : Option String :=
  match l[rid]? with
  | some (some r) => r.token
  | _ => none

/-- The sender-wallet key a live record files its id under. -/
def walKeyAt (l : List (Option Record)) (rid : Nat) : Option String :=
  match l[rid]? with
  | some (some r) => r.wallet_from
  | _ => none

theorem getElem?_append_single (l : List γ) (a : γ) (x : Nat) :
    (l ++ [a])[x]? = if x = l.length then some a else l[x]? := by
  by_cases hx : x = l.length
  · subst hx
    simp [List.getElem?_concat_length, List.getElem?_eq_none_iff.mpr (le_refl _)]
  · by_cases hlt : x < l.length
    · simp [hx, List.getElem?_append_left hlt]
    · have h1 : l.length ≤ x := le_of_not_lt hlt
      have h2 : (l ++ [a]).length ≤ x := by
        simp only [List.length_append, List.length_cons, List.length_nil]
        omega
      simp [hx, List.getElem?_eq_none_iff.mpr h1,
        List.getElem?_eq_none_iff.mpr h2]

theorem getElem?_set_general (l : List γ) (v : γ) (rid x : Nat)
    (hlt : rid < l.length) :
    (l.set rid v)[x]? = if x = rid then some v else l[x]? := by
  by_cases hx : x = rid
  · subst hx
    simp [List.getElem?_set_eq_of_lt v hlt]
  · simp [hx, List.getElem?_set_ne (fun hh => hx hh.symm)]

theorem tsKeyAt_append (l : List (Option Record)) (r : Record) (x : Nat) :
    tsKeyAt (l ++ [some r]) x =
      updAt (tsKeyAt l) l.length (some r.timestamp) x := by
  unfold tsKeyAt updAt
  rw [getElem?_append_single]
  by_cases hx : x = l.length <;> simp [hx]

theorem tokKeyAt_append (l : List (Option Record)) (r : Record) (x : Nat) :
    tokKeyAt (l ++ [some r]) x = updAt (tokKeyAt l) l.length r.token x := by
  unfold tokKeyAt updAt
  rw [getElem?_append_single]
  by_cases hx : x = l.length <;> simp [hx]

theorem walKeyAt_append (l : List (Option Record)) (r : Record) (x : Nat) :
    walKeyAt (l ++ [some r]) x =
      updAt (walKeyAt l) l.length r.wallet_from x := by
  unfold walKeyAt updAt
  rw [getElem?_append_single]
  by_cases hx : x = l.length <;> simp [hx]

theorem tsKeyAt_set (l : List (Option Record)) (v : Option Record)
    (rid x : Nat) (hlt : rid < l.length) :
    tsKeyAt (l.set rid v) x =
      updAt (tsKeyAt l) rid (match v with
        | some r => some r.timestamp
        | none => none) x := by
  unfold tsKeyAt updAt
  rw [getElem?_set_general _ _ _ _ hlt]
  by_cases hx : x = rid
  · subst hx
    cases v <;> simp
  · simp [hx]

theorem tokKeyAt_set (l : List (Option Record)) (v : Option Record)
    (rid x : Nat) (hlt : rid < l.length) :
    tokKeyAt (l.set rid v) x =
      updAt (tokKeyAt l) rid (match v with
        | some r => r.token
        | none => none) x := by
  unfold tokKeyAt updAt
  rw [getElem?_set_general _ _ _ _ hlt]
  by_cases hx : x = rid
  · subst hx
    cases v <;> simp
  · simp [hx]

theorem walKeyAt_set (l : List (Option Record)) (v : Option Record)
    (rid x : Nat) (hlt : rid < l.length) :
    walKeyAt (l.set rid v) x =
      updAt (walKeyAt l) rid (match v with
        | some r => r.wallet_from
        | none => none) x := by
  unfold walKeyAt updAt
  rw [getElem?_set_general _ _ _ _ hlt]
  by_cases hx : x = rid
  · subst hx
    cases v <;> simp
  · simp [hx]

theorem liveCount_append_some (l : List (Option Record)) (r : Record) :
    liveCount (l ++ [some r]) = liveCount l + 1 := by
  simp [liveCount, List.countP_append]

theorem liveCount_set (l : List (Option Record)) (v : Option Record)
    (rid : Nat) (r : Record) (h : l[rid]? = some (some r)) :
    liveCount (l.set rid v) + 1 = liveCount l + (if v.isSome then 1 else 0) := by
  induction l generalizing rid with
  | nil => simp at h
  | cons a tl ih =>
    cases rid with
    | zero =>
      simp only [List.getElem?_cons_zero, Option.some_inj] at h
      subst h
      cases v <;> simp [liveCount, List.countP_cons, List.set]
    | succ n =>
      simp only [List.getElem?_cons_succ] at h
      have := ih n h
      simp only [List.set, liveCount, List.countP_cons] at this ⊢
      omega

theorem addIdxO_some [LinearOrder κ] (idx : AVLTreeMap κ (List Nat))
    (k : κ) (rid : Nat) : addIdxO idx (some k) rid = addIdxK idx k rid := rfl

theorem remIdxO_some [LinearOrder κ] [Inhabited κ]
    (idx : AVLTreeMap κ (List Nat)) (k : κ) (rid : Nat) :
    remIdxO idx (some k) rid = remIdxK idx k rid := rfl

/-! ### The store invariant -/

/-- Consistency of a `CryptoDB` state: the id counter matches the
array length, the active count matches the number of live slots, and
each of the three indexes is a search tree whose buckets agree with
the live records' keys. -/
structure DbInv (db : CryptoDB) : Prop where
  next_eq : db.next_record_id = db.data_store.length
  active_eq : db.active_records = liveCount db.data_store
  ts_inv : IdxInv db.timestamp_index (tsKeyAt db.data_store)
  tok_inv : IdxInv db.token_index (tokKeyAt db.data_store)
  wal_inv : IdxInv db.wallet_from_index (walKeyAt db.data_store)

theorem DbInv_empty : DbInv CryptoDB.empty := by
  refine ⟨rfl, rfl, ⟨AVLTreeMap.Wfm_empty, ?_⟩, ⟨AVLTreeMap.Wfm_empty, ?_⟩,
    ⟨AVLTreeMap.Wfm_empty, ?_⟩⟩ <;>
    (intro rid k;
     simp [CryptoDB.empty, bucketOf, AVLTreeMap.get, AVLTreeMap.empty, getA,
       tsKeyAt, tokKeyAt, walKeyAt])

theorem DbInv_insert (db : CryptoDB) (r : Record) (h : DbInv db) :
    DbInv (db.insertRecord r).1 := by
  obtain ⟨hne, hae, hts, htok, hwal⟩ := h
  have hfresh_ts : tsKeyAt db.data_store db.next_record_id = none := by
    unfold tsKeyAt
    rw [hne, List.getElem?_eq_none_iff.mpr (le_refl _)]
  have hfresh_tok : tokKeyAt db.data_store db.next_record_id = none := by
    unfold tokKeyAt
    rw [hne, List.getElem?_eq_none_iff.mpr (le_refl _)]
  have hfresh_wal : walKeyAt db.data_store db.next_record_id = none := by
    unfold walKeyAt
    rw [hne, List.getElem?_eq_none_iff.mpr (le_refl _)]
  refine ⟨?_, ?_, ?_, ?_, ?_⟩
  · simp [CryptoDB.insertRecord, hne]
  · simp [CryptoDB.insertRecord, hae, liveCount_append_some]
  · rw [show (db.insertRecord r).1.timestamp_index =
        addIdxO db.timestamp_index (some r.timestamp) db.next_record_id from rfl]
    refine IdxInv_congr _ _ _
      (IdxInv_add db.timestamp_index _ db.next_record_id _ hts hfresh_ts) ?_
    intro x
    rw [show (db.insertRecord r).1.data_store =
      db.data_store ++ [some r] from rfl, tsKeyAt_append, hne]
  · refine IdxInv_congr _ _ _
      (IdxInv_add db.token_index _ db.next_record_id r.token htok hfresh_tok) ?_
    intro x
    rw [show (db.insertRecord r).1.data_store =
      db.data_store ++ [some r] from rfl, tokKeyAt_append, hne]
  · refine IdxInv_congr _ _ _
      (IdxInv_add db.wallet_from_index _ db.next_record_id r.wallet_from hwal
        hfresh_wal) ?_
    intro x
    rw [show (db.insertRecord r).1.data_store =
      db.data_store ++ [some r] from rfl, walKeyAt_append, hne]

theorem DbInv_delete (db : CryptoDB) (rid : Nat) (h : DbInv db) :
    DbInv (db.deleteRecord rid).1 := by
  obtain ⟨hne, hae, hts, htok, hwal⟩ := h
  unfold CryptoDB.deleteRecord
  cases hg : db.data_store[rid]? with
  | none => exact ⟨hne, hae, hts, htok, hwal⟩
  | some o =>
    cases o with
    | none => exact ⟨hne, hae, hts, htok, hwal⟩
    | some rec =>
      have hlt : rid < db.data_store.length := by
        by_contra hge
        rw [List.getElem?_eq_none_iff.mpr (le_of_not_lt hge)] at hg
        cases hg
      have hts_key : tsKeyAt db.data_store rid = some rec.timestamp := by
        unfold tsKeyAt; rw [hg]
      have htok_key : tokKeyAt db.data_store rid = rec.token := by
        unfold tokKeyAt; rw [hg]
      have hwal_key : walKeyAt db.data_store rid = rec.wallet_from := by
        unfold walKeyAt; rw [hg]
      refine ⟨?_, ?_, ?_, ?_, ?_⟩
      · simpa using hne
      · have hl := liveCount_set db.data_store none rid rec hg
        simp only [Option.isSome_none, Bool.false_eq_true, if_false] at hl
        show db.active_records - 1 = liveCount (db.data_store.set rid none)
        omega
      · have h1 := IdxInv_rem db.timestamp_index (tsKeyAt db.data_store) rid hts
        rw [hts_key, remIdxO_some] at h1
        refine IdxInv_congr _ _ _ h1 ?_
        intro x
        rw [show (({ db with
            data_store := db.data_store.set rid none,
            timestamp_index := remIdxK db.timestamp_index rec.timestamp rid,
            token_index := remIdxO db.token_index rec.token rid,
            wallet_from_index :=
              remIdxO db.wallet_from_index rec.wallet_from rid,
            active_records := db.active_records - 1 } : CryptoDB), true).1.data_store =
          db.data_store.set rid none from rfl, tsKeyAt_set _ _ _ _ hlt]
      · have h1 := IdxInv_rem db.token_index (tokKeyAt db.data_store) rid htok
        rw [htok_key] at h1
        refine IdxInv_congr _ _ _ h1 ?_
        intro x
        rw [show (({ db with
            data_store := db.data_store.set rid none,
            timestamp_index := remIdxK db.timestamp_index rec.timestamp rid,
            token_index := remIdxO db.token_index rec.token rid,
            wallet_from_index :=
              remIdxO db.wallet_from_index rec.wallet_from rid,
            active_records := db.active_records - 1 } : CryptoDB), true).1.data_store =
          db.data_store.set rid none from rfl, tokKeyAt_set _ _ _ _ hlt]
      · have h1 := IdxInv_rem db.wallet_from_index (walKeyAt db.data_store) rid hwal
        rw [hwal_key] at h1
        refine IdxInv_congr _ _ _ h1 ?_
        intro x
        rw [show (({ db with
            data_store := db.data_store.set rid none,
            timestamp_index := remIdxK db.timestamp_index rec.timestamp rid,
            token_index := remIdxO db.token_index rec.token rid,
            wallet_from_index :=
              remIdxO db.wallet_from_index rec.wallet_from rid,
            active_records := db.active_records - 1 } : CryptoDB), true).1.data_store =
          db.data_store.set rid none from rfl, walKeyAt_set _ _ _ _ hlt]

theorem DbInv_update (db : CryptoDB) (rid : Nat) (u : RecUpdates)
    (h : DbInv db) : DbInv (db.updateRecord rid u).1 := by
  obtain ⟨hne, hae, hts, htok, hwal⟩ := h
  unfold CryptoDB.updateRecord
  cases hg : db.data_store[rid]? with
  | none => exact ⟨hne, hae, hts, htok, hwal⟩
  | some o =>
    cases o with
    | none => exact ⟨hne, hae, hts, htok, hwal⟩
    | some rec =>
      have hlt : rid < db.data_store.length := by
        by_contra hge
        rw [List.getElem?_eq_none_iff.mpr (le_of_not_lt hge)] at hg
        cases hg
      have hts_key : tsKeyAt db.data_store rid = some rec.timestamp := by
        unfold tsKeyAt; rw [hg]
      have htok_key : tokKeyAt db.data_store rid = rec.token := by
        unfold tokKeyAt; rw [hg]
      have hwal_key : walKeyAt db.data_store rid = rec.wallet_from := by
        unfold walKeyAt; rw [hg]
      dsimp only
      refine ⟨?_, ?_, ?_, ?_, ?_⟩
      · simpa using hne
      · have hl := liveCount_set db.data_store (some (applyUpdates rec u))
          rid rec hg
        simp only [Option.isSome_some, if_true] at hl
        show db.active_records =
          liveCount (db.data_store.set rid (some (applyUpdates rec u)))
        omega
      · show IdxInv
          (if (applyUpdates rec u).timestamp ≠ rec.timestamp then
            addIdxK (remIdxK db.timestamp_index rec.timestamp rid)
              (applyUpdates rec u).timestamp rid
          else db.timestamp_index)
          (tsKeyAt (db.data_store.set rid (some (applyUpdates rec u))))
        by_cases hc : (applyUpdates rec u).timestamp ≠ rec.timestamp
        · rw [if_pos hc, ← addIdxO_some, ← remIdxO_some, ← hts_key]
          refine IdxInv_congr _ _ _
            (IdxInv_rem_add db.timestamp_index _ rid _ hts) ?_
          intro x
          rw [tsKeyAt_set _ _ _ _ hlt]
        · rw [if_neg hc]
          push_neg at hc
          refine IdxInv_congr _ _ _ hts ?_
          intro x
          rw [tsKeyAt_set _ _ _ _ hlt]
          unfold updAt
          by_cases hx : x = rid
          · subst hx
            simp [hts_key, hc]
          · simp [hx]
      · show IdxInv
          (if (applyUpdates rec u).token ≠ rec.token then
            addIdxO (remIdxO db.token_index rec.token rid)
              (applyUpdates rec u).token rid
          else db.token_index)
          (tokKeyAt (db.data_store.set rid (some (applyUpdates rec u))))
        by_cases hc : (applyUpdates rec u).token ≠ rec.token
        · rw [if_pos hc, ← htok_key]
          refine IdxInv_congr _ _ _
            (IdxInv_rem_add db.token_index _ rid _ htok) ?_
          intro x
          rw [tokKeyAt_set _ _ _ _ hlt]
        · rw [if_neg hc]
          push_neg at hc
          refine IdxInv_congr _ _ _ htok ?_
          intro x
          rw [tokKeyAt_set _ _ _ _ hlt]
          unfold updAt
          by_cases hx : x = rid
          · subst hx
            simp [htok_key, hc]
          · simp [hx]
      · show IdxInv
          (if (applyUpdates rec u).wallet_from ≠ rec.wallet_from then
            addIdxO (remIdxO db.wallet_from_index rec.wallet_from rid)
              (applyUpdates rec u).wallet_from rid
          else db.wallet_from_index)
          (walKeyAt (db.data_store.set rid (some (applyUpdates rec u))))
        by_cases hc : (applyUpdates rec u).wallet_from ≠ rec.wallet_from
        · rw [if_pos hc, ← hwal_key]
          refine IdxInv_congr _ _ _
            (IdxInv_rem_add db.wallet_from_index _ rid _ hwal) ?_
          intro x
          rw [walKeyAt_set _ _ _ _ hlt]
        · rw [if_neg hc]
          push_neg at hc
          refine IdxInv_congr _ _ _ hwal ?_
          intro x
          rw [walKeyAt_set _ _ _ _ hlt]
          unfold updAt
          by_cases hx : x = rid
          · subst hx
            simp [hwal_key, hc]
          · simp [hx]

theorem DbInv_applyDbOpsFrom (db : CryptoDB) (ops : List DbOp)
    (h : DbInv db) : DbInv (applyDbOpsFrom db ops) := by
  induction ops generalizing db with
  | nil => exact h
  | cons op ops ih =>
    cases op with
    | ins r => exact ih _ (DbInv_insert db r h)
    | del rid => exact ih _ (DbInv_delete db rid h)
    | upd rid u => exact ih _ (DbInv_update db rid u h)

theorem DbInv_applyDbOps (ops : List DbOp) : DbInv (applyDbOps ops) :=
  DbInv_applyDbOpsFrom _ ops DbInv_empty

theorem tombstone_persists (ops2 : List DbOp) (db : CryptoDB) (rid : Nat)
    (h : db.data_store[rid]? = some none) :
    (applyDbOpsFrom db ops2).data_store[rid]? = some none := by
  induction ops2 generalizing db with
  | nil => exact h
  | cons op ops2 ih =>
    refine ih _ ?_
    cases op with
    | ins r =>
      have hlt : rid < db.data_store.length := by
        by_contra hge
        rw [List.getElem?_eq_none_iff.mpr (le_of_not_lt hge)] at h
        cases h
      show (db.data_store ++ [some r])[rid]? = some none
      rw [List.getElem?_append_left hlt]
      exact h
    | del rid2 =>
      show ((db.deleteRecord rid2).1).data_store[rid]? = some none
      unfold CryptoDB.deleteRecord
      cases hg : db.data_store[rid2]? with
      | none => exact h
      | some o =>
        cases o with
        | none => exact h
        | some rec =>
          have hne2 : rid2 ≠ rid := by
            intro hh
            subst hh
            rw [h] at hg
            cases hg
          show (db.data_store.set rid2 none)[rid]? = some none
          rw [List.getElem?_set_ne hne2]
          exact h
    | upd rid2 u =>
      show ((db.updateRecord rid2 u).1).data_store[rid]? = some none
      unfold CryptoDB.updateRecord
      cases hg : db.data_store[rid2]? with
      | none => exact h
      | some o =>
        cases o with
        | none => exact h
        | some rec =>
          have hne2 : rid2 ≠ rid := by
            intro hh
            subst hh
            rw [h] at hg
            cases hg
          show (db.data_store.set rid2 (some (applyUpdates rec u)))[rid]? =
            some none
          rw [List.getElem?_set_ne hne2]
          exact h

/-! ### Claims about the record store -/

/-- C4: after every sequence of insert_record, update_record and
delete_record operations, `active_records` equals the number of
non-tombstoned slots, and each non-tombstoned record's timestamp,
token and sender-wallet values each have the record's id present
exactly once in the bucket of the corresponding index (and the id is
absent from every other bucket of that index). -/
theorem c4_store_invariant (ops : List DbOp) :
    (applyDbOps ops).active_records = liveCount (applyDbOps ops).data_store ∧
    ∀ rid r, (applyDbOps ops).data_store[rid]? = some (some r) →
      (∀ ts, (bucketOf (applyDbOps ops).timestamp_index ts).count rid =
          if ts = r.timestamp then 1 else 0) ∧
      (∀ t, (bucketOf (applyDbOps ops).token_index t).count rid =
          if some t = r.token then 1 else 0) ∧
      (∀ w, (bucketOf (applyDbOps ops).wallet_from_index w).count rid =
          if some w = r.wallet_from then 1 else 0) := by
  have h := DbInv_applyDbOps ops
  refine ⟨h.active_eq, ?_⟩
  intro rid r hg
  refine ⟨?_, ?_, ?_⟩
  · intro ts
    rw [h.ts_inv.2 rid ts]
    unfold tsKeyAt
    rw [hg]
    by_cases hc : ts = r.timestamp <;> simp [hc]
    intro hh
    exact hc hh.symm
  · intro t
    rw [h.tok_inv.2 rid t]
    unfold tokKeyAt
    rw [hg]
    by_cases hc : some t = r.token
    · rw [if_pos hc.symm, if_pos hc]
    · rw [if_neg (fun hh => hc hh.symm), if_neg hc]
  · intro w
    rw [h.wal_inv.2 rid w]
    unfold walKeyAt
    rw [hg]
    by_cases hc : some w = r.wallet_from
    · rw [if_pos hc.symm, if_pos hc]
    · rw [if_neg (fun hh => hc hh.symm), if_neg hc]

/-- C4 witness: the invariant at a concrete one-insert history. -/
def sampleRecord : Record :=
  ⟨100, some "BTC", some "WA", some "WB", some 1, some 2, some "success"⟩

theorem c4_store_invariant_witness :
    (applyDbOps [.ins sampleRecord]).active_records =
      liveCount (applyDbOps [.ins sampleRecord]).data_store ∧
    ∀ rid r,
      (applyDbOps [.ins sampleRecord]).data_store[rid]? = some (some r) →
      (∀ ts,
        (bucketOf (applyDbOps [.ins sampleRecord]).timestamp_index ts).count rid =
          if ts = r.timestamp then 1 else 0) ∧
      (∀ t,
        (bucketOf (applyDbOps [.ins sampleRecord]).token_index t).count rid =
          if some t = r.token then 1 else 0) ∧
      (∀ w,
        (bucketOf (applyDbOps [.ins sampleRecord]).wallet_from_index w).count rid =
          if some w = r.wallet_from then 1 else 0) :=
  c4_store_invariant [.ins sampleRecord]

/-- C5: deleting a live id succeeds, tombstones the slot, removes the
id from every bucket of all three indexes, and decrements
`active_records` by exactly 1; a second delete of the same id fails
and leaves the state completely unchanged; a delete of an out-of-range
id fails and leaves the state unchanged; and the tombstoned slot is
never reused by any later operation sequence. -/
theorem c5_delete_semantics (ops : List DbOp) (rid : Nat) (r : Record)
    (hlive : (applyDbOps ops).data_store[rid]? = some (some r)) :
    ((applyDbOps ops).deleteRecord rid).2 = true ∧
    (((applyDbOps ops).deleteRecord rid).1.data_store[rid]? = some none ∧
     ((applyDbOps ops).deleteRecord rid).1.active_records + 1 =
       (applyDbOps ops).active_records ∧
     (∀ ts, rid ∉
       bucketOf ((applyDbOps ops).deleteRecord rid).1.timestamp_index ts) ∧
     (∀ t, rid ∉
       bucketOf ((applyDbOps ops).deleteRecord rid).1.token_index t) ∧
     (∀ w, rid ∉
       bucketOf ((applyDbOps ops).deleteRecord rid).1.wallet_from_index w) ∧
     ((applyDbOps ops).deleteRecord rid).1.deleteRecord rid =
       (((applyDbOps ops).deleteRecord rid).1, false) ∧
     (∀ ops2,
       (applyDbOpsFrom ((applyDbOps ops).deleteRecord rid).1 ops2).data_store[rid]? =
         some none)) ∧
    (∀ rid2, (applyDbOps ops).data_store.length ≤ rid2 →
      (applyDbOps ops).deleteRecord rid2 = (applyDbOps ops, false)) := by
  have hinv := DbInv_applyDbOps ops
  have hlt : rid < (applyDbOps ops).data_store.length := by
    by_contra hge
    rw [List.getElem?_eq_none_iff.mpr (le_of_not_lt hge)] at hlive
    cases hlive
  have hinv2 : DbInv ((applyDbOps ops).deleteRecord rid).1 :=
    DbInv_delete _ _ hinv
  have hslot : ((applyDbOps ops).deleteRecord rid).1.data_store[rid]? =
      some none := by
    show ((match (applyDbOps ops).data_store[rid]? with
      | some (some record) => _
      | _ => _ : CryptoDB × Bool)).1.data_store[rid]? = some none
    rw [hlive]
    show ((applyDbOps ops).data_store.set rid none)[rid]? = some none
    exact List.getElem?_set_eq_of_lt none hlt
  have hdeadkeys : ∀ k,
      tsKeyAt ((applyDbOps ops).deleteRecord rid).1.data_store rid ≠ some k := by
    intro k
    unfold tsKeyAt
    rw [hslot]
    simp
  refine ⟨?_, ⟨hslot, ?_, ?_, ?_, ?_, ?_, ?_⟩, ?_⟩
  · show ((match (applyDbOps ops).data_store[rid]? with
      | some (some record) => _
      | _ => _ : CryptoDB × Bool)).2 = true
    rw [hlive]
  · have h1 : liveCount (applyDbOps ops).data_store ≥ 1 := by
      have := liveCount_set (applyDbOps ops).data_store none rid r hlive
      simp only [Option.isSome_none, Bool.false_eq_true, if_false] at this
      omega
    have h2 := hinv.active_eq
    have h3 : ((applyDbOps ops).deleteRecord rid).1.active_records =
        (applyDbOps ops).active_records - 1 := by
      show ((match (applyDbOps ops).data_store[rid]? with
        | some (some record) => _
        | _ => _ : CryptoDB × Bool)).1.active_records = _
      rw [hlive]
    omega
  · intro ts
    rw [← List.count_eq_zero]
    rw [hinv2.ts_inv.2 rid ts]
    unfold tsKeyAt
    rw [hslot]
    simp
  · intro t
    rw [← List.count_eq_zero]
    rw [hinv2.tok_inv.2 rid t]
    unfold tokKeyAt
    rw [hslot]
    simp
  · intro w
    rw [← List.count_eq_zero]
    rw [hinv2.wal_inv.2 rid w]
    unfold walKeyAt
    rw [hslot]
    simp
  · have hsecond : ∀ db2 : CryptoDB, db2.data_store[rid]? = some none →
        db2.deleteRecord rid = (db2, false) := by
      intro db2 hs2
      unfold CryptoDB.deleteRecord
      rw [hs2]
    exact hsecond _ hslot
  · intro ops2
    exact tombstone_persists ops2 _ rid hslot
  · intro rid2 hge
    unfold CryptoDB.deleteRecord
    rw [List.getElem?_eq_none_iff.mpr hge]

/-- C5 witness: the delete semantics applied to the concrete history
that inserts one record and deletes id 0. -/
theorem c5_delete_semantics_witness :
    (applyDbOps [.ins sampleRecord]).data_store[0]? =
      some (some sampleRecord) ∧
    ((applyDbOps [.ins sampleRecord]).deleteRecord 0).2 = true ∧
    ((applyDbOps [.ins sampleRecord]).deleteRecord 0).1.active_records + 1 =
      (applyDbOps [.ins sampleRecord]).active_records :=
  ⟨by rfl, (c5_delete_semantics [.ins sampleRecord] 0 sampleRecord (by rfl)).1,
    (c5_delete_semantics [.ins sampleRecord] 0 sampleRecord (by rfl)).2.1.2.1⟩

/-! ### The wallet graph (`core/graph.py`)

Python's insertion-ordered dicts become association lists: lookup is
first match, in-place update keeps the position, a fresh key is
appended at the end.  `defaultdict` defaults are passed explicitly. -/

/-- A directed edge aggregate `{"count": ..., "total_volume": ...}`. -/
structure EdgeStats where
  count : Nat
  total_volume : ℚ
deriving Repr, DecidableEq

/-- `CryptoGraph` state: adjacency (sender to receiver to edge stats)
and the two per-wallet-per-token counters. -/
structure CryptoGraph where
  graph : List (String × List (String × EdgeStats))
  wallet_token_counts : List (String × List (String × Nat))
  wallet_token_volume : List (String × List (String × ℚ))
deriving Repr

/-- `CryptoGraph.__init__`, also the state after the three `clear()`
calls of `build_graph_from_db`. -/
def emptyGraph : CryptoGraph := ⟨[], [], []⟩

/-- `dd[k] = f(dd[k])` on a dict with default `d` for a missing key:
update the first matching entry in place, else append the key. -/
def updateAList [DecidableEq σ] (l : List (σ × τ)) (k : σ) (d : τ)
    (f : τ → τ) : List (σ × τ) :=
  match l with
  | [] => [(k, f d)]
  | (k0, v0) :: tl =>
    if k = k0 then (k0, f v0) :: tl else (k0, v0) :: updateAList tl k d f

theorem lookupL_updateAList [DecidableEq σ] (l : List (σ × τ)) (k : σ)
    (d : τ) (f : τ → τ) (a : σ) :
    lookupL (updateAList l k d f) a =
      if a = k then some (f ((lookupL l k).getD d)) else lookupL l a := by
  induction l with
  | nil =>
    by_cases ha : a = k <;> simp [updateAList, lookupL, ha]
  | cons e tl ih =>
    obtain ⟨k0, v0⟩ := e
    by_cases hk : k = k0
    · subst hk
      by_cases ha : a = k <;> simp [updateAList, lookupL, ha]
    · by_cases ha : a = k0
      · subst ha
        have h2 : ¬ a = k := fun hh => hk hh.symm
        simp [updateAList, hk, lookupL, h2]
      · simp [updateAList, hk, lookupL, ha, ih]

/-- The wallet-presence test (`if not u or not v: continue`): the
field must be present and nonempty. -/
def wallOk : Option String → Bool
  | none => false
  | some s => !(s = "")

/-- Token and volume as `build_graph_from_db` reads them:
`(rec.get("token") or "").strip()` and
`float(rec.get("volume", 0.0))`. -/
def recTok (r : Record) : String := (r.token.getD "").trim

/-- Volume with the 0.0 default. -/
def recVol (r : Record) : ℚ := r.volume.getD 0

/-- One iteration of the `build_graph_from_db` loop. -/
def graphStep (g : CryptoGraph) (rec? : Option Record) : CryptoGraph :=
  match rec? with
  | none => g
  | some rec =>
    match rec.wallet_from, rec.wallet_to with
    | some u, some v =>
      if u = "" ∨ v = "" then g
      else
        let token := recTok rec
        let volume := recVol rec
        { wallet_token_counts :=
            updateAList
              (updateAList g.wallet_token_counts u []
                (fun m => updateAList m token 0 (fun c => c + 1)))
              v [] (fun m => updateAList m token 0 (fun c => c + 1)),
          wallet_token_volume :=
            updateAList
              (updateAList g.wallet_token_volume u []
                (fun m => updateAList m token 0 (fun x => x + volume)))
              v [] (fun m => updateAList m token 0 (fun x => x + volume)),
          graph :=
            updateAList g.graph u []
              (fun nbrs => updateAList nbrs v ⟨0, 0⟩
                (fun e => ⟨e.count + 1, e.total_volume + volume⟩)) }
    | _, _ => g

/-- `CryptoGraph.build_graph_from_db`: clear all three dicts, then
fold the loop body over the data store in order (the previous graph
state is discarded unconditionally). -/
def CryptoGraph.buildGraphFromDb (_g : CryptoGraph) (db : CryptoDB) :
    CryptoGraph :=
  db.data_store.foldl graphStep emptyGraph

/-- The outgoing-neighbor keys of a wallet
(iteration over `self.graph.get(u, {})`). -/
def succKeys (g : CryptoGraph) (u : String) : List String :=
  ((lookupL g.graph u).getD []).map Prod.fst

/-- The enqueue loop of `bfs`: visit each neighbor not yet seen,
marking it visited and appending it to the queue. -/
def bfsEnqueue (visited queue : List String) :
    List String → List String × List String
  | [] => (visited, queue)
  | v :: tl =>
    if v ∈ visited then bfsEnqueue visited queue tl
    else bfsEnqueue (v :: visited) (queue ++ [v]) tl

/-- The `while queue` loop of `bfs`, with fuel (one unit per dequeue;
`bfs` passes enough fuel that it never runs out). -/
def bfsLoop (g : CryptoGraph) :
    Nat → List String → List String → List String → List String
  | 0, _, _, order => order
  | _ + 1, [], _, order => order
  | fuel + 1, u :: rest, visited, order =>
    match bfsEnqueue visited rest (succKeys g u) with
    | (v2, q2) => bfsLoop g fuel q2 v2 (order ++ [u])

/-- Total number of adjacency entries; every node enqueued after the
start is a fresh neighbor occurrence, so this bounds the enqueues. -/
def totalNbrLen (g : CryptoGraph) : Nat :=
  (g.graph.map (fun p => p.2.length)).sum

/-- `CryptoGraph.bfs`: a start wallet with no adjacency entry returns
alone; otherwise breadth-first order over outgoing edges. -/
def CryptoGraph.bfs (g : CryptoGraph) (start : String) : List String :=
  match lookupL g.graph start with
  | none => [start]
  | some _ => bfsLoop g (totalNbrLen g + 1) [start] [start] []

/-! ### Characterizing the built graph (C6) -/

/-- The aggregate stored on the directed edge u to v, if any
(`self.graph.get(u, {}).get(v)`). -/
def edgeStats (g : CryptoGraph) (u v : String) : Option EdgeStats :=
  lookupL ((lookupL g.graph u).getD []) v

/-- Edge count, 0 when the edge is absent. -/
def edgeCountOf (g : CryptoGraph) (u v : String) : Nat :=
  ((edgeStats g u v).getD ⟨0, 0⟩).count

/-- Edge volume, 0 when the edge is absent. -/
def edgeVolOf (g : CryptoGraph) (u v : String) : ℚ :=
  ((edgeStats g u v).getD ⟨0, 0⟩).total_volume

/-- Per-wallet-per-token transaction count, 0 when untracked. -/
def tokCountOf (g : CryptoGraph) (w t : String) : Nat :=
  ((lookupL ((lookupL g.wallet_token_counts w).getD []) t)).getD 0

/-- Per-wallet-per-token volume, 0 when untracked. -/
def tokVolOf (g : CryptoGraph) (w t : String) : ℚ :=
  ((lookupL ((lookupL g.wallet_token_volume w).getD []) t)).getD 0

/-- The sender wallet as a string (defined when `wallOk`). -/
def recFrom (r : Record) : String := r.wallet_from.getD ""

/-- The receiver wallet as a string (defined when `wallOk`). -/
def recTo (r : Record) : String := r.wallet_to.getD ""

/-- Modelled from the spec, per-record edge-count contribution: a
non-tombstoned record with both wallets present adds 1 to the directed
edge sender to receiver. -/
def edgeCnt1 (u v : String) (rec? : Option Record) : Nat :=
  match rec? with
  | none => 0
  | some rec =>
    if wallOk rec.wallet_from ∧ wallOk rec.wallet_to ∧
        recFrom rec = u ∧ recTo rec = v then 1 else 0

/-- Modelled from the spec, per-record edge-volume contribution. -/
def edgeVol1 (u v : String) (rec? : Option Record) : ℚ :=
  match rec? with
  | none => 0
  | some rec =>
    if wallOk rec.wallet_from ∧ wallOk rec.wallet_to ∧
        recFrom rec = u ∧ recTo rec = v then recVol rec else 0

/-- Modelled from the spec, per-record wallet/token count
contribution: 1 for the sender and 1 for the receiver (2 on a
self-transfer). -/
def tokCnt1 (w t : String) (rec? : Option Record) : Nat :=
  match rec? with
  | none => 0
  | some rec =>
    if wallOk rec.wallet_from ∧ wallOk rec.wallet_to ∧ recTok rec = t then
      (if recFrom rec = w then 1 else 0) + (if recTo rec = w then 1 else 0)
    else 0

/-- Modelled from the spec, per-record wallet/token volume
contribution: the amount once for the sender and once for the
receiver. -/
def tokVol1 (w t : String) (rec? : Option Record) : ℚ :=
  match rec? with
  | none => 0
  | some rec =>
    if wallOk rec.wallet_from ∧ wallOk rec.wallet_to ∧ recTok rec = t then
      (if recFrom rec = w then recVol rec else 0) +
        (if recTo rec = w then recVol rec else 0)
    else 0

theorem lookup2_updateAList [DecidableEq σ] (m : List (σ × List (σ × τ)))
    (w0 t0 : σ) (d : τ) (f : τ → τ) (w t : σ) :
    lookupL ((lookupL (updateAList m w0 []
        (fun mm => updateAList mm t0 d f)) w).getD []) t =
      if w = w0 ∧ t = t0 then
        some (f ((lookupL ((lookupL m w0).getD []) t0).getD d))
      else lookupL ((lookupL m w).getD []) t := by
  rw [lookupL_updateAList]
  by_cases hw : w = w0
  · subst hw
    rw [if_pos rfl]
    simp only [Option.getD_some]
    rw [lookupL_updateAList]
    by_cases ht : t = t0
    · subst ht
      rw [if_pos rfl, if_pos (by simp)]
    · rw [if_neg ht, if_neg (by simp [ht])]
  · rw [if_neg hw, if_neg (by simp [hw])]

theorem edgeStats_graphStep_contrib (g : CryptoGraph) (rec : Record)
    (u v : String) (hu : wallOk rec.wallet_from = true)
    (hv : wallOk rec.wallet_to = true) :
    edgeStats (graphStep g (some rec)) u v =
      if recFrom rec = u ∧ recTo rec = v then
        some ⟨edgeCountOf g u v + 1, edgeVolOf g u v + recVol rec⟩
      else edgeStats g u v := by
  cases hwf : rec.wallet_from with
  | none => rw [hwf] at hu; cases hu
  | some u0 =>
  cases hwt : rec.wallet_to with
  | none => rw [hwt] at hv; cases hv
  | some v0 =>
  rw [hwf] at hu
  rw [hwt] at hv
  have hu0 : ¬ u0 = "" := by simpa [wallOk] using hu
  have hv0 : ¬ v0 = "" := by simpa [wallOk] using hv
  have hfrom : recFrom rec = u0 := by simp [recFrom, hwf]
  have hto : recTo rec = v0 := by simp [recTo, hwt]
  have hgr : (graphStep g (some rec)).graph =
      updateAList g.graph u0 []
        (fun nbrs => updateAList nbrs v0 ⟨0, 0⟩
          (fun e => ⟨e.count + 1, e.total_volume + recVol rec⟩)) := by
    simp only [graphStep, hwf, hwt]
    rw [if_neg (by simp [hu0, hv0])]
  unfold edgeCountOf edgeVolOf edgeStats
  rw [show (graphStep g (some rec)).graph =
    updateAList g.graph u0 []
      (fun nbrs => updateAList nbrs v0 ⟨0, 0⟩
        (fun e => ⟨e.count + 1, e.total_volume + recVol rec⟩)) from hgr]
  rw [lookup2_updateAList]
  rw [hfrom, hto]
  by_cases hc : u = u0 ∧ v = v0
  · obtain ⟨hc1, hc2⟩ := hc
    subst hc1
    subst hc2
    rw [if_pos ⟨rfl, rfl⟩]
  · rw [if_neg hc, if_neg (fun hh => hc ⟨hh.1.symm, hh.2.symm⟩)]

/-- Whether a slot contributes to the graph. -/
def contribB (rec? : Option Record) : Bool :=
  match rec? with
  | none => false
  | some rec => wallOk rec.wallet_from && wallOk rec.wallet_to

theorem graphStep_noncontrib (g : CryptoGraph) (rec? : Option Record)
    (h : contribB rec? = false) : graphStep g rec? = g := by
  cases rec? with
  | none => rfl
  | some rec =>
    cases hwf : rec.wallet_from with
    | none => simp [graphStep, hwf]
    | some u0 =>
      cases hwt : rec.wallet_to with
      | none => simp [graphStep, hwf, hwt]
      | some v0 =>
        simp only [contribB, hwf, hwt, Bool.and_eq_false_iff] at h
        have : u0 = "" ∨ v0 = "" := by
          rcases h with h | h <;> [left; right] <;> simpa [wallOk] using h
        simp [graphStep, hwf, hwt, this]

theorem ite_eq_symm {σ τ : Type} [DecidableEq σ] (a b : σ) (x y : τ) :
    (if a = b then x else y) = (if b = a then x else y) := by
  by_cases h : a = b
  · rw [if_pos h, if_pos h.symm]
  · rw [if_neg h, if_neg (fun hh => h hh.symm)]

theorem double_bump [DecidableEq σ] [AddCommMonoid τ]
    (m : List (σ × List (σ × τ))) (u0 v0 t0 : σ) (c : τ) (w t : σ) :
    ((lookupL ((lookupL (updateAList
        (updateAList m u0 [] (fun mm => updateAList mm t0 0 (fun x => x + c)))
        v0 [] (fun mm => updateAList mm t0 0 (fun x => x + c))) w).getD []) t).getD 0) =
      (lookupL ((lookupL m w).getD []) t).getD 0 +
        ((if w = u0 ∧ t = t0 then c else 0) +
          (if w = v0 ∧ t = t0 then c else 0)) := by
  rw [lookup2_updateAList, lookup2_updateAList, lookup2_updateAList]
  by_cases h2 : w = v0 ∧ t = t0
  · rw [if_pos h2, if_pos h2]
    obtain ⟨hw2, ht2⟩ := h2
    by_cases h3 : v0 = u0
    · rw [if_pos ⟨h3, rfl⟩]
      simp only [Option.getD_some]
      rw [if_pos ⟨hw2.trans h3, ht2⟩, hw2, ht2, h3]
      simp [add_assoc]
    · rw [if_neg (fun hh => h3 hh.1)]
      simp only [Option.getD_some]
      rw [if_neg (fun hh => h3 (hw2.symm.trans hh.1)), hw2, ht2]
      simp
  · rw [if_neg h2, if_neg h2]
    by_cases h1 : w = u0 ∧ t = t0
    · rw [if_pos h1, if_pos h1]
      simp only [Option.getD_some]
      rw [h1.1, h1.2]
      simp
    · rw [if_neg h1, if_neg h1]
      simp

theorem tok_graphStep_contrib (g : CryptoGraph) (rec : Record)
    (w t : String) (hu : wallOk rec.wallet_from = true)
    (hv : wallOk rec.wallet_to = true) :
    tokCountOf (graphStep g (some rec)) w t =
      tokCountOf g w t + tokCnt1 w t (some rec) ∧
    tokVolOf (graphStep g (some rec)) w t =
      tokVolOf g w t + tokVol1 w t (some rec) := by
  cases hwf : rec.wallet_from with
  | none => rw [hwf] at hu; cases hu
  | some u0 =>
  cases hwt : rec.wallet_to with
  | none => rw [hwt] at hv; cases hv
  | some v0 =>
  rw [hwf] at hu
  rw [hwt] at hv
  have hu0 : ¬ u0 = "" := by simpa [wallOk] using hu
  have hv0 : ¬ v0 = "" := by simpa [wallOk] using hv
  have hfrom : recFrom rec = u0 := by simp [recFrom, hwf]
  have hto : recTo rec = v0 := by simp [recTo, hwt]
  have hcnt : (graphStep g (some rec)).wallet_token_counts =
      updateAList
        (updateAList g.wallet_token_counts u0 []
          (fun m => updateAList m (recTok rec) 0 (fun c => c + 1)))
        v0 [] (fun m => updateAList m (recTok rec) 0 (fun c => c + 1)) := by
    simp only [graphStep, hwf, hwt]
    rw [if_neg (by simp [hu0, hv0])]
  have hvol : (graphStep g (some rec)).wallet_token_volume =
      updateAList
        (updateAList g.wallet_token_volume u0 []
          (fun m => updateAList m (recTok rec) 0 (fun x => x + recVol rec)))
        v0 [] (fun m => updateAList m (recTok rec) 0 (fun x => x + recVol rec)) := by
    simp only [graphStep, hwf, hwt]
    rw [if_neg (by simp [hu0, hv0])]
  have ht1 : tokCnt1 w t (some rec) =
      (if w = u0 ∧ t = recTok rec then 1 else 0) +
        (if w = v0 ∧ t = recTok rec then 1 else 0) := by
    simp only [tokCnt1, hfrom, hto]
    rw [hwf, hwt]
    by_cases h1 : recTok rec = t
    · subst h1
      rw [if_pos ⟨hu, hv, rfl⟩]
      simp only [eq_self_iff_true, and_true]
      rw [ite_eq_symm u0 w, ite_eq_symm v0 w]
    · rw [if_neg (fun hh => h1 hh.2.2)]
      rw [if_neg (fun hh => h1 hh.2.symm), if_neg (fun hh => h1 hh.2.symm)]
  have ht2 : tokVol1 w t (some rec) =
      (if w = u0 ∧ t = recTok rec then recVol rec else 0) +
        (if w = v0 ∧ t = recTok rec then recVol rec else 0) := by
    simp only [tokVol1, hfrom, hto]
    rw [hwf, hwt]
    by_cases h1 : recTok rec = t
    · subst h1
      rw [if_pos ⟨hu, hv, rfl⟩]
      simp only [eq_self_iff_true, and_true]
      rw [ite_eq_symm u0 w, ite_eq_symm v0 w]
    · rw [if_neg (fun hh => h1 hh.2.2)]
      rw [if_neg (fun hh => h1 hh.2.symm), if_neg (fun hh => h1 hh.2.symm)]
      simp
  constructor
  · unfold tokCountOf
    rw [hcnt, double_bump, ht1]
  · unfold tokVolOf
    rw [hvol, double_bump, ht2]

theorem contrib1_zero_of_noncontrib (rec? : Option Record)
    (h : contribB rec? = false) (u v w t : String) :
    edgeCnt1 u v rec? = 0 ∧ edgeVol1 u v rec? = 0 ∧
      tokCnt1 w t rec? = 0 ∧ tokVol1 w t rec? = 0 := by
  cases rec? with
  | none => exact ⟨rfl, rfl, rfl, rfl⟩
  | some rec =>
    simp only [contribB, Bool.and_eq_false_iff] at h
    have hor : ¬ (wallOk rec.wallet_from = true ∧ wallOk rec.wallet_to = true) := by
      rcases h with h | h <;> simp [h]
    refine ⟨?_, ?_, ?_, ?_⟩ <;>
      simp only [edgeCnt1, edgeVol1, tokCnt1, tokVol1] <;>
      rw [if_neg (fun hh => hor ⟨hh.1, hh.2.1⟩)]

theorem foldl_graphStep_edge (l : List (Option Record)) (g : CryptoGraph)
    (u v : String) :
    edgeCountOf (l.foldl graphStep g) u v =
        edgeCountOf g u v + (l.map (edgeCnt1 u v)).sum ∧
      edgeVolOf (l.foldl graphStep g) u v =
        edgeVolOf g u v + (l.map (edgeVol1 u v)).sum ∧
      (edgeStats (l.foldl graphStep g) u v = none ↔
        edgeStats g u v = none ∧ (l.map (edgeCnt1 u v)).sum = 0) := by
  induction l generalizing g with
  | nil => simp
  | cons rec? l ih =>
    rw [List.foldl_cons, List.map_cons, List.sum_cons, List.map_cons,
      List.sum_cons]
    cases hc : contribB rec? with
    | false =>
      obtain ⟨h1, h2, h3, h4⟩ := contrib1_zero_of_noncontrib rec? hc u v u v
      rw [graphStep_noncontrib g rec? hc, h1, h2]
      obtain ⟨e1, e2, e3⟩ := ih g
      refine ⟨by rw [e1]; omega, by rw [e2]; ring, ?_⟩
      rw [e3]
      constructor
      · rintro ⟨a, b⟩
        exact ⟨a, by omega⟩
      · rintro ⟨a, b⟩
        exact ⟨a, by omega⟩
    | true =>
      cases rec? with
      | none => cases hc
      | some rec =>
        simp only [contribB, Bool.and_eq_true] at hc
        have hstep := edgeStats_graphStep_contrib g rec u v hc.1 hc.2
        obtain ⟨e1, e2, e3⟩ := ih (graphStep g (some rec))
        have hcnt1 : edgeCnt1 u v (some rec) =
            if recFrom rec = u ∧ recTo rec = v then 1 else 0 := by
          simp only [edgeCnt1]
          by_cases hcc : recFrom rec = u ∧ recTo rec = v
          · rw [if_pos ⟨hc.1, hc.2, hcc.1, hcc.2⟩, if_pos hcc]
          · rw [if_neg (fun hh => hcc ⟨hh.2.2.1, hh.2.2.2⟩), if_neg hcc]
        have hvol1 : edgeVol1 u v (some rec) =
            if recFrom rec = u ∧ recTo rec = v then recVol rec else 0 := by
          simp only [edgeVol1]
          by_cases hcc : recFrom rec = u ∧ recTo rec = v
          · rw [if_pos ⟨hc.1, hc.2, hcc.1, hcc.2⟩, if_pos hcc]
          · rw [if_neg (fun hh => hcc ⟨hh.2.2.1, hh.2.2.2⟩), if_neg hcc]
        by_cases hcc : recFrom rec = u ∧ recTo rec = v
        · rw [if_pos hcc] at hstep
          have hsc : edgeCountOf (graphStep g (some rec)) u v =
              edgeCountOf g u v + 1 := by
            unfold edgeCountOf
            rw [hstep]
            rfl
          have hsv : edgeVolOf (graphStep g (some rec)) u v =
              edgeVolOf g u v + recVol rec := by
            unfold edgeVolOf
            rw [hstep]
            rfl
          have hsn : edgeStats (graphStep g (some rec)) u v ≠ none := by
            rw [hstep]
            exact fun hh => Option.noConfusion hh
          refine ⟨?_, ?_, ?_⟩
          · rw [e1, hsc, hcnt1, if_pos hcc]
            omega
          · rw [e2, hsv, hvol1, if_pos hcc]
            ring
          · rw [e3, hcnt1, if_pos hcc]
            constructor
            · rintro ⟨a, b⟩
              exact absurd a hsn
            · rintro ⟨a, b⟩
              omega
        · rw [if_neg hcc] at hstep
          refine ⟨?_, ?_, ?_⟩
          · rw [e1, hcnt1, if_neg hcc]
            unfold edgeCountOf
            rw [hstep]
            omega
          · rw [e2, hvol1, if_neg hcc]
            unfold edgeVolOf
            rw [hstep]
            ring
          · rw [e3, hstep, hcnt1, if_neg hcc]
            constructor
            · rintro ⟨a, b⟩
              exact ⟨a, by omega⟩
            · rintro ⟨a, b⟩
              exact ⟨a, by omega⟩

theorem foldl_graphStep_tok (l : List (Option Record)) (g : CryptoGraph)
    (w t : String) :
    tokCountOf (l.foldl graphStep g) w t =
        tokCountOf g w t + (l.map (tokCnt1 w t)).sum ∧
      tokVolOf (l.foldl graphStep g) w t =
        tokVolOf g w t + (l.map (tokVol1 w t)).sum := by
  induction l generalizing g with
  | nil => simp
  | cons rec? l ih =>
    rw [List.foldl_cons, List.map_cons, List.sum_cons, List.map_cons,
      List.sum_cons]
    cases hc : contribB rec? with
    | false =>
      obtain ⟨h1, h2, h3, h4⟩ := contrib1_zero_of_noncontrib rec? hc w t w t
      rw [graphStep_noncontrib g rec? hc, h3, h4]
      obtain ⟨e1, e2⟩ := ih g
      exact ⟨by rw [e1]; omega, by rw [e2]; ring⟩
    | true =>
      cases rec? with
      | none => cases hc
      | some rec =>
        simp only [contribB, Bool.and_eq_true] at hc
        have hstep := tok_graphStep_contrib g rec w t hc.1 hc.2
        obtain ⟨e1, e2⟩ := ih (graphStep g (some rec))
        refine ⟨?_, ?_⟩
        · rw [e1, hstep.1]
          omega
        · rw [e2, hstep.2]
          ring

/-! ### Claim about graph rebuild (C6) -/

/-- C6: rebuilding the graph from a store discards all previous graph
state; for every ordered wallet pair the single directed edge carries
exactly the count and summed amount of the contributing records
(collapsing multiple records into one edge, absent when there are
none); and every wallet's per-token counters accumulate one count and
one amount contribution for the sender and one for the receiver of
each contributing record. -/
theorem c6_build_graph (g0 g1 : CryptoGraph) (db : CryptoDB) :
    CryptoGraph.buildGraphFromDb g1 db = CryptoGraph.buildGraphFromDb g0 db ∧
    (∀ u v, edgeStats (CryptoGraph.buildGraphFromDb g0 db) u v =
      (if (db.data_store.map (edgeCnt1 u v)).sum = 0 then none
       else some ⟨(db.data_store.map (edgeCnt1 u v)).sum,
         (db.data_store.map (edgeVol1 u v)).sum⟩)) ∧
    (∀ w t, tokCountOf (CryptoGraph.buildGraphFromDb g0 db) w t =
        (db.data_store.map (tokCnt1 w t)).sum ∧
      tokVolOf (CryptoGraph.buildGraphFromDb g0 db) w t =
        (db.data_store.map (tokVol1 w t)).sum) := by
  refine ⟨rfl, ?_, ?_⟩
  · intro u v
    have h := foldl_graphStep_edge db.data_store emptyGraph u v
    have hbase : edgeStats emptyGraph u v = none := rfl
    have hgeq : CryptoGraph.buildGraphFromDb g0 db =
        db.data_store.foldl graphStep emptyGraph := rfl
    rw [hgeq]
    by_cases hz : (db.data_store.map (edgeCnt1 u v)).sum = 0
    · rw [if_pos hz]
      exact h.2.2.mpr ⟨hbase, hz⟩
    · rw [if_neg hz]
      cases hes : edgeStats (db.data_store.foldl graphStep emptyGraph) u v with
      | none => exact absurd (h.2.2.mp hes).2 hz
      | some e =>
        have hcount : e.count = (db.data_store.map (edgeCnt1 u v)).sum := by
          have := h.1
          unfold edgeCountOf at this
          rw [hes] at this
          simpa [edgeCountOf, edgeStats, lookupL] using this
        have hvol : e.total_volume = (db.data_store.map (edgeVol1 u v)).sum := by
          have := h.2.1
          unfold edgeVolOf at this
          rw [hes] at this
          simpa [edgeVolOf, edgeStats, lookupL] using this
        cases e with
        | mk c tv =>
          simp only at hcount hvol
          rw [hcount, hvol]
  · intro w t
    have h := foldl_graphStep_tok db.data_store emptyGraph w t
    have hgeq : CryptoGraph.buildGraphFromDb g0 db =
        db.data_store.foldl graphStep emptyGraph := rfl
    rw [hgeq]
    refine ⟨?_, ?_⟩
    · rw [h.1]
      show (0 : Nat) + _ = _
      rw [Nat.zero_add]
    · rw [h.2]
      show (0 : ℚ) + _ = _
      rw [zero_add]

/-! ### Claim about bfs (C10) -/

theorem lookupL_mem [DecidableEq σ] (l : List (σ × τ)) (k : σ) (v : τ)
    (h : lookupL l k = some v) : (k, v) ∈ l := by
  induction l with
  | nil => cases h
  | cons e tl ih =>
    obtain ⟨k0, v0⟩ := e
    by_cases hk : k = k0
    · subst hk
      have hv : v0 = v := by simpa [lookupL] using h
      subst hv
      simp
    · simp only [lookupL, if_neg hk] at h
      simp [ih h]

theorem updateAList_forall [DecidableEq σ] (l : List (σ × τ)) (k : σ)
    (d : τ) (f : τ → τ) (P : τ → Prop) (hl : ∀ e ∈ l, P e.2)
    (hf : ∀ x, P (f x)) : ∀ e ∈ updateAList l k d f, P e.2 := by
  induction l with
  | nil =>
    intro e he
    simp only [updateAList, List.mem_singleton] at he
    subst he
    exact hf d
  | cons e0 tl ih =>
    obtain ⟨k0, v0⟩ := e0
    intro e he
    by_cases hk : k = k0
    · subst hk
      have he2 : e ∈ (k, f v0) :: tl := by simpa [updateAList] using he
      rcases List.mem_cons.mp he2 with h3 | h3
      · subst h3
        exact hf v0
      · exact hl e (List.mem_cons_of_mem _ h3)
    · simp only [updateAList, if_neg hk, List.mem_cons] at he
      rcases he with he | he
      · subst he
        exact hl (k0, v0) (List.mem_cons_self _ _)
      · exact ih (fun x hx => hl x (List.mem_cons_of_mem _ hx)) e he

theorem updateAList_ne_nil [DecidableEq σ] (l : List (σ × τ)) (k : σ)
    (d : τ) (f : τ → τ) : updateAList l k d f ≠ [] := by
  cases l with
  | nil => simp [updateAList]
  | cons e tl =>
    obtain ⟨k0, v0⟩ := e
    by_cases hk : k = k0 <;> simp [updateAList, hk]

theorem built_graph_values_ne_nil (g0 : CryptoGraph) (db : CryptoDB) :
    ∀ e ∈ (CryptoGraph.buildGraphFromDb g0 db).graph, e.2 ≠ [] := by
  have hgen : ∀ (l : List (Option Record)) (g : CryptoGraph),
      (∀ e ∈ g.graph, e.2 ≠ []) →
      ∀ e ∈ (l.foldl graphStep g).graph, e.2 ≠ [] := by
    intro l
    induction l with
    | nil => intro g hg; exact hg
    | cons rec? l ih =>
      intro g hg
      rw [List.foldl_cons]
      refine ih _ ?_
      cases hc : contribB rec? with
      | false => rw [graphStep_noncontrib g rec? hc]; exact hg
      | true =>
        cases rec? with
        | none => cases hc
        | some rec =>
          simp only [contribB, Bool.and_eq_true] at hc
          cases hwf : rec.wallet_from with
          | none => rw [hwf] at hc; cases hc.1
          | some u0 =>
          cases hwt : rec.wallet_to with
          | none => rw [hwt] at hc; cases hc.2
          | some v0 =>
          rw [hwf] at hc
          rw [hwt] at hc
          have hu0 : ¬ u0 = "" := by simpa [wallOk] using hc.1
          have hv0 : ¬ v0 = "" := by simpa [wallOk] using hc.2
          have hgr : (graphStep g (some rec)).graph =
              updateAList g.graph u0 []
                (fun nbrs => updateAList nbrs v0 ⟨0, 0⟩
                  (fun e => ⟨e.count + 1, e.total_volume + recVol rec⟩)) := by
            simp only [graphStep, hwf, hwt]
            rw [if_neg (by simp [hu0, hv0])]
          rw [hgr]
          exact updateAList_forall _ _ _ _ (fun x => x ≠ []) hg
            (fun x => updateAList_ne_nil _ _ _ _)
  exact hgen db.data_store emptyGraph (by simp [emptyGraph])

theorem bfsEnqueue_spec (nbrs : List String) :
    ∀ (visited queue pre : List String),
    (pre ++ queue).Nodup → (∀ x ∈ pre ++ queue, x ∈ visited) →
    ((pre ++ (bfsEnqueue visited queue nbrs).2).Nodup ∧
      ∀ x ∈ pre ++ (bfsEnqueue visited queue nbrs).2,
        x ∈ (bfsEnqueue visited queue nbrs).1) := by
  induction nbrs with
  | nil =>
    intro visited queue pre h1 h2
    exact ⟨h1, h2⟩
  | cons v tl ih =>
    intro visited queue pre h1 h2
    by_cases hv : v ∈ visited
    · rw [show bfsEnqueue visited queue (v :: tl) = bfsEnqueue visited queue tl
        from by rw [bfsEnqueue, if_pos hv]]
      exact ih visited queue pre h1 h2
    · rw [show bfsEnqueue visited queue (v :: tl) =
        bfsEnqueue (v :: visited) (queue ++ [v]) tl
        from by rw [bfsEnqueue, if_neg hv]]
      have hvnot : v ∉ pre ++ queue := fun hmem => hv (h2 v hmem)
      refine ih (v :: visited) (queue ++ [v]) pre ?_ ?_
      · rw [← List.append_assoc]
        rw [List.nodup_append]
        refine ⟨h1, List.nodup_singleton v, ?_⟩
        intro a ha hb
        rw [List.mem_singleton] at hb
        subst hb
        exact hvnot ha
      · intro x hx
        rw [← List.append_assoc, List.mem_append] at hx
        rcases hx with hx | hx
        · exact List.mem_cons_of_mem _ (h2 x hx)
        · rw [List.mem_singleton] at hx
          subst hx
          exact List.mem_cons_self _ _

theorem bfsLoop_nodup (g : CryptoGraph) :
    ∀ (fuel : Nat) (queue visited order : List String),
    (order ++ queue).Nodup → (∀ x ∈ order ++ queue, x ∈ visited) →
    (bfsLoop g fuel queue visited order).Nodup := by
  intro fuel
  induction fuel with
  | zero =>
    intro queue visited order h1 _
    exact (List.nodup_append.mp h1).1
  | succ fuel ih =>
    intro queue visited order h1 h2
    cases queue with
    | nil =>
      exact (List.nodup_append.mp h1).1
    | cons u rest =>
      rw [show bfsLoop g (fuel + 1) (u :: rest) visited order =
        bfsLoop g fuel (bfsEnqueue visited rest (succKeys g u)).2
          (bfsEnqueue visited rest (succKeys g u)).1 (order ++ [u])
        from by rw [bfsLoop]]
      have h1b : ((order ++ [u]) ++ rest).Nodup := by
        rw [List.append_assoc]
        exact h1
      have h2b : ∀ x ∈ (order ++ [u]) ++ rest, x ∈ visited := by
        intro x hx
        rw [List.append_assoc] at hx
        exact h2 x hx
      have hs := bfsEnqueue_spec (succKeys g u) visited rest (order ++ [u])
        h1b h2b
      exact ih _ _ _ hs.1 hs.2

/-- C10: on every built graph, a start wallet with no outgoing edge
(including one absent from every record) is returned alone by `bfs`,
and for every start wallet the returned traversal contains no wallet
twice. -/
theorem c10_bfs (g0 : CryptoGraph) (db : CryptoDB) (start : String) :
    (succKeys (CryptoGraph.buildGraphFromDb g0 db) start = [] →
      (CryptoGraph.buildGraphFromDb g0 db).bfs start = [start]) ∧
    ((CryptoGraph.buildGraphFromDb g0 db).bfs start).Nodup := by
  constructor
  · intro hnone
    have hlk : lookupL (CryptoGraph.buildGraphFromDb g0 db).graph start = none := by
      cases hl : lookupL (CryptoGraph.buildGraphFromDb g0 db).graph start with
      | none => rfl
      | some nbrs =>
        have hmem := lookupL_mem _ _ _ hl
        have hne := built_graph_values_ne_nil g0 db _ hmem
        unfold succKeys at hnone
        rw [hl] at hnone
        simp only [Option.getD_some, List.map_eq_nil_iff] at hnone
        exact absurd hnone hne
    unfold CryptoGraph.bfs
    rw [hlk]
  · unfold CryptoGraph.bfs
    cases lookupL (CryptoGraph.buildGraphFromDb g0 db).graph start with
    | none => exact List.nodup_singleton start
    | some nbrs =>
      refine bfsLoop_nodup _ _ _ _ [] ?_ ?_
      · simp
      · intro x hx
        simpa using hx

/-- C10 witness: the bfs claims at a concrete built graph and an
absent start wallet. -/
theorem c10_bfs_witness :
    succKeys (CryptoGraph.buildGraphFromDb emptyGraph
      (applyDbOps [.ins sampleRecord])) "W9" = [] ∧
    (CryptoGraph.buildGraphFromDb emptyGraph
      (applyDbOps [.ins sampleRecord])).bfs "W9" = ["W9"] :=
  ⟨by rfl,
    (c10_bfs emptyGraph (applyDbOps [.ins sampleRecord]) "W9").1 (by rfl)⟩

/-! ### Shortest path (C7) -/

/-- Adjacency over outgoing edges: v is a direct successor of u. -/
def adjB (g : CryptoGraph) (u v : String) : Bool :=
  decide (v ∈ succKeys g u)

/-- A nonempty chain of wallets, each linked to the next by an
outgoing edge. -/
def isWalk (g : CryptoGraph) : List String → Bool
  | [] => false
  | [_] => true
  | u :: v :: tl => adjB g u v && isWalk g (v :: tl)

/-- One-step extensions of a reversed path (its head is the current
endpoint). -/
def extendPath (g : CryptoGraph) (p : List String) : List (List String) :=
  (succKeys g (p.headD "")).map (fun v => v :: p)

/-- One breadth-first level: all one-step extensions of the previous
frontier. -/
def extendPaths (g : CryptoGraph) (ps : List (List String)) :
    List (List String) :=
  (ps.map (extendPath g)).flatten

/-- The k-th breadth-first level of reversed paths out of src. -/
def levelK (g : CryptoGraph) (src : String) : Nat → List (List String)
  | 0 => [[src]]
  | n + 1 => extendPaths g (levelK g src n)

/-- Whether a reversed path currently ends at dst. -/
def hitsB (dst : String) (p : List String) : Bool :=
  decide (p.headD "" = dst)

/-- Breadth-first search by levels for the first path reaching dst;
fuel bounds the number of levels examined. -/
def bfsPaths (g : CryptoGraph) (dst : String) :
    Nat → List (List String) → Option (List String)
  | 0, _ => none
  | fuel + 1, ps =>
    match ps.find? (hitsB dst) with
    | some p => some p.reverse
    | none => bfsPaths g dst fuel (extendPaths g ps)

/-- Modelled from the spec: `shortest_path(src, dst)` is named by the
spec and called by the application layer, but `graph.py` does not
define it; the spec describes an unweighted breadth-first search over
outgoing edges only that returns a minimal-hop path from src to dst,
and a not-found result when dst is unreachable or src has no outgoing
edges recorded. -/
def CryptoGraph.shortestPath (g : CryptoGraph) (src dst : String) :
    Option (List String) :=
  match lookupL g.graph src with
  | none => none
  | some _ => bfsPaths g dst (totalNbrLen g + 1) [[src]]

theorem isWalk_snoc (g : CryptoGraph) :
    ∀ (f : List String) (v : String), f ≠ [] →
    (isWalk g (f ++ [v]) = true ↔
      isWalk g f = true ∧ v ∈ succKeys g (f.getLastD "")) := by
  intro f
  induction f with
  | nil => intro v hv; exact absurd rfl hv
  | cons u f2 ih =>
    intro v _
    cases f2 with
    | nil =>
      simp [isWalk, adjB]
    | cons u2 tl =>
      have h2 := ih v (by simp)
      simp only [List.cons_append] at h2 ⊢
      simp only [isWalk, Bool.and_eq_true] at h2 ⊢
      have hlast : ((u :: u2 :: tl).getLastD "") =
          ((u2 :: tl).getLastD "") := by
        rw [List.getLastD_eq_getLast?, List.getLastD_eq_getLast?,
          List.getLast?_cons_cons]
      rw [hlast]
      tauto

theorem isWalk_append (g : CryptoGraph) :
    ∀ (xs : List String) (a : String) (ys : List String),
    isWalk g (xs ++ a :: ys) = true ↔
      isWalk g (xs ++ [a]) = true ∧ isWalk g (a :: ys) = true := by
  intro xs
  induction xs with
  | nil =>
    intro a ys
    simp [isWalk]
  | cons x xs2 ih =>
    intro a ys
    cases xs2 with
    | nil =>
      simp [isWalk, Bool.and_eq_true]
    | cons x2 tl2 =>
      have h2 := ih a ys
      simp only [List.cons_append] at h2 ⊢
      simp only [isWalk, Bool.and_eq_true] at h2 ⊢
      tauto

theorem walk_splice (g : CryptoGraph) (xs ys zs : List String)
    (a : String) (h : isWalk g (xs ++ a :: (ys ++ a :: zs)) = true) :
    isWalk g (xs ++ a :: zs) = true := by
  have h1 := (isWalk_append g xs a (ys ++ a :: zs)).mp h
  have h2 : isWalk g ((a :: ys) ++ a :: zs) = true := by
    simpa using h1.2
  have h3 := (isWalk_append g (a :: ys) a zs).mp h2
  exact (isWalk_append g xs a zs).mpr ⟨h1.1, h3.2⟩

theorem exists_dup_split (l : List String) (h : ¬ l.Nodup) :
    ∃ a xs ys zs, l = xs ++ a :: (ys ++ a :: zs) := by
  induction l with
  | nil => exact absurd List.nodup_nil h
  | cons x tl ih =>
    by_cases hx : x ∈ tl
    · obtain ⟨s, t, rfl⟩ := List.mem_iff_append.mp hx
      exact ⟨x, [], s, t, rfl⟩
    · have htl : ¬ tl.Nodup := by
        intro hn
        exact h (List.nodup_cons.mpr ⟨hx, hn⟩)
      obtain ⟨a, xs, ys, zs, rfl⟩ := ih htl
      exact ⟨a, x :: xs, ys, zs, rfl⟩

theorem head?_append_cons (xs : List String) (a : String)
    (ys zs : List String) :
    (xs ++ a :: ys).head? = (xs ++ a :: zs).head? := by
  cases xs <;> simp

theorem getLast?_splice (xs ys zs : List String) (a : String) :
    (xs ++ a :: (ys ++ a :: zs)).getLast? = (xs ++ a :: zs).getLast? := by
  have h1 : (xs ++ a :: (ys ++ a :: zs)).getLast? = (a :: zs).getLast? := by
    rw [List.getLast?_append_of_ne_nil xs
      (List.cons_ne_nil a (ys ++ a :: zs))]
    rw [show a :: (ys ++ a :: zs) = (a :: ys) ++ (a :: zs) from by simp]
    rw [List.getLast?_append_of_ne_nil (a :: ys) (List.cons_ne_nil a zs)]
  have h2 : (xs ++ a :: zs).getLast? = (a :: zs).getLast? :=
    List.getLast?_append_of_ne_nil xs (List.cons_ne_nil a zs)
  rw [h1, h2]

theorem walk_shorten (g : CryptoGraph) :
    ∀ (m : Nat) (q : List String), q.length ≤ m → isWalk g q = true →
    ∃ q2, isWalk g q2 = true ∧ q2.head? = q.head? ∧
      q2.getLast? = q.getLast? ∧ q2.Nodup ∧ q2.length ≤ q.length := by
  intro m
  induction m with
  | zero =>
    intro q hlen hw
    cases q with
    | nil => cases hw
    | cons x tl => simp at hlen
  | succ m ih =>
    intro q hlen hw
    by_cases hn : q.Nodup
    · exact ⟨q, hw, rfl, rfl, hn, le_refl _⟩
    · obtain ⟨a, xs, ys, zs, rfl⟩ := exists_dup_split q hn
      have hw2 : isWalk g (xs ++ a :: zs) = true :=
        walk_splice g xs ys zs a hw
      have hlen2 : (xs ++ a :: zs).length ≤ m := by
        simp only [List.length_append, List.length_cons] at hlen ⊢
        omega
      obtain ⟨q2, h1, h2, h3, h4, h5⟩ := ih (xs ++ a :: zs) hlen2 hw2
      refine ⟨q2, h1, ?_, ?_, h4, ?_⟩
      · rw [h2]
        exact head?_append_cons xs a zs (ys ++ a :: zs)
      · rw [h3]
        exact (getLast?_splice xs ys zs a).symm
      · simp only [List.length_append, List.length_cons] at h5 ⊢
        omega

/-- All successor occurrences anywhere in the adjacency structure. -/
def allSucc (g : CryptoGraph) : List String :=
  (g.graph.map (fun e => keysL e.2)).flatten

theorem length_allSucc (g : CryptoGraph) :
    (allSucc g).length = totalNbrLen g := by
  simp [allSucc, totalNbrLen, List.length_flatten, keysL,
    Function.comp_def]

theorem mem_allSucc_of_mem_succKeys (g : CryptoGraph) (u v : String)
    (hv : v ∈ succKeys g u) : v ∈ allSucc g := by
  cases hl : lookupL g.graph u with
  | none =>
    unfold succKeys at hv
    rw [hl] at hv
    simp at hv
  | some nbrs =>
    unfold succKeys at hv
    rw [hl] at hv
    have hmem := lookupL_mem _ _ _ hl
    unfold allSucc
    rw [List.mem_flatten]
    refine ⟨keysL nbrs, ?_, ?_⟩
    · exact List.mem_map_of_mem _ hmem
    · simpa [keysL] using hv

theorem walk_subset (g : CryptoGraph) :
    ∀ (q : List String), isWalk g q = true →
    ∀ v ∈ q, v ∈ q.headD "" :: allSucc g := by
  intro q
  induction q with
  | nil => intro hw; cases hw
  | cons u tl ih =>
    intro hw v hv
    cases tl with
    | nil =>
      simp only [List.mem_singleton] at hv
      subst hv
      exact List.mem_cons_self _ _
    | cons u2 tl2 =>
      simp only [isWalk, adjB, Bool.and_eq_true] at hw
      rcases List.mem_cons.mp hv with h | h
      · subst h
        exact List.mem_cons_self _ _
      · have h2 := ih hw.2 v h
        have hu2 : u2 ∈ allSucc g :=
          mem_allSucc_of_mem_succKeys g u u2 (of_decide_eq_true hw.1)
        rcases List.mem_cons.mp h2 with h3 | h3
        · rw [show (u2 :: tl2).headD "" = u2 from rfl] at h3
          subst h3
          exact List.mem_cons_of_mem _ hu2
        · exact List.mem_cons_of_mem _ h3

theorem nodup_walk_length_le (g : CryptoGraph) (q : List String)
    (hw : isWalk g q = true) (hn : q.Nodup) :
    q.length ≤ totalNbrLen g + 1 := by
  have hsub : q ⊆ q.headD "" :: allSucc g :=
    fun v hv => walk_subset g q hw v hv
  have hsp := List.subperm_of_subset hn hsub
  have hle := List.Subperm.length_le hsp
  simpa [length_allSucc] using hle

theorem mem_levelK (g : CryptoGraph) (src : String) :
    ∀ (n : Nat) (p : List String),
    p ∈ levelK g src n ↔
      isWalk g p.reverse = true ∧ p.length = n + 1 ∧
        p.getLast? = some src := by
  intro n
  induction n with
  | zero =>
    intro p
    constructor
    · intro hp
      simp only [levelK, List.mem_singleton] at hp
      subst hp
      exact ⟨rfl, rfl, rfl⟩
    · rintro ⟨hw, hlen, hlast⟩
      obtain ⟨a, rfl⟩ := List.length_eq_one.mp hlen
      simp only [List.getLast?_singleton, Option.some_inj] at hlast
      subst hlast
      simp [levelK]
  | succ n ih =>
    intro p
    constructor
    · intro hp
      simp only [levelK, extendPaths, List.mem_flatten, List.mem_map] at hp
      obtain ⟨ll, ⟨q, hq, rfl⟩, hpq⟩ := hp
      simp only [extendPath, List.mem_map] at hpq
      obtain ⟨v, hv, rfl⟩ := hpq
      obtain ⟨hw, hlen, hlast⟩ := (ih q).mp hq
      have hqne : q ≠ [] := by
        intro hq0
        rw [hq0] at hlen
        cases hlen
      refine ⟨?_, ?_, ?_⟩
      · rw [List.reverse_cons]
        rw [isWalk_snoc g q.reverse v
          (by simpa [List.reverse_eq_nil_iff] using hqne)]
        refine ⟨hw, ?_⟩
        rw [List.getLastD_eq_getLast?, List.getLast?_reverse]
        rw [List.headD_eq_head?_getD] at hv
        exact hv
      · simp [hlen]
      · cases q with
        | nil => exact absurd rfl hqne
        | cons b l =>
          rw [List.getLast?_cons_cons]
          exact hlast
    · rintro ⟨hw, hlen, hlast⟩
      cases p with
      | nil => simp at hlen
      | cons v q =>
        have hqlen : q.length = n + 1 := by simpa using hlen
        have hqne : q ≠ [] := by
          intro h0
          subst h0
          simp at hqlen
        rw [List.reverse_cons] at hw
        rw [isWalk_snoc g q.reverse v
          (by simpa [List.reverse_eq_nil_iff] using hqne)] at hw
        obtain ⟨hw2, hv⟩ := hw
        have hlast2 : q.getLast? = some src := by
          cases q with
          | nil => exact absurd rfl hqne
          | cons b l =>
            rw [List.getLast?_cons_cons] at hlast
            exact hlast
        have hq : q ∈ levelK g src n := (ih q).mpr ⟨hw2, hqlen, hlast2⟩
        simp only [levelK, extendPaths, List.mem_flatten, List.mem_map]
        refine ⟨extendPath g q, ⟨q, hq, rfl⟩, ?_⟩
        simp only [extendPath, List.mem_map]
        refine ⟨v, ?_, rfl⟩
        rw [List.getLastD_eq_getLast?, List.getLast?_reverse] at hv
        rw [List.headD_eq_head?_getD]
        exact hv

theorem bfsPaths_spec (g : CryptoGraph) (src dst : String) :
    ∀ (fuel k : Nat),
    (∀ r, bfsPaths g dst fuel (levelK g src k) = some r →
      ∃ j, k ≤ j ∧ r.reverse ∈ levelK g src j ∧
        (r.reverse).headD "" = dst ∧
        ∀ i, k ≤ i → i < j → ∀ q ∈ levelK g src i,
          ¬ q.headD "" = dst) ∧
    (bfsPaths g dst fuel (levelK g src k) = none →
      ∀ j, k ≤ j → j < k + fuel → ∀ q ∈ levelK g src j,
        ¬ q.headD "" = dst) := by
  intro fuel
  induction fuel with
  | zero =>
    intro k
    constructor
    · intro r hr
      simp [bfsPaths] at hr
    · intro _ j hkj hjk
      exact absurd hjk (by omega)
  | succ fuel ih =>
    intro k
    cases hfind : (levelK g src k).find? (hitsB dst) with
    | some p =>
      have heq : bfsPaths g dst (fuel + 1) (levelK g src k) =
          some p.reverse := by
        rw [bfsPaths, hfind]
      constructor
      · intro r hr
        rw [heq] at hr
        have hr3 : p.reverse = r := Option.some_inj.mp hr
        subst hr3
        refine ⟨k, le_refl k, ?_, ?_, ?_⟩
        · rw [List.reverse_reverse]
          exact List.mem_of_find?_eq_some hfind
        · rw [List.reverse_reverse]
          have hh := List.find?_some hfind
          exact of_decide_eq_true (by simpa [hitsB] using hh)
        · intro i h1 h2
          exact absurd h2 (by omega)
      · intro hnone
        rw [heq] at hnone
        cases hnone
    | none =>
      have heq : bfsPaths g dst (fuel + 1) (levelK g src k) =
          bfsPaths g dst fuel (levelK g src (k + 1)) := by
        rw [bfsPaths, hfind]
        rfl
      have hmiss : ∀ q ∈ levelK g src k, ¬ q.headD "" = dst := by
        intro q hq hd
        have hh := List.find?_eq_none.mp hfind q hq
        exact hh (by simp only [hitsB, decide_eq_true_eq]; exact hd)
      obtain ⟨ihs, ihn⟩ := ih (k + 1)
      constructor
      · intro r hr
        rw [heq] at hr
        obtain ⟨j, hj1, hj2, hj3, hj4⟩ := ihs r hr
        refine ⟨j, by omega, hj2, hj3, ?_⟩
        intro i h1 h2 q hq hd
        by_cases hik : i = k
        · subst hik
          exact hmiss q hq hd
        · exact hj4 i (by omega) h2 q hq hd
      · intro hnone j hkj hjf
        rw [heq] at hnone
        by_cases hjk : j = k
        · subst hjk
          exact hmiss
        · exact ihn hnone j (by omega) (by omega)

theorem shortestPath_sound (g : CryptoGraph) (src dst : String)
    (r : List String)
    (h : CryptoGraph.shortestPath g src dst = some r) :
    isWalk g r = true ∧ r.head? = some src ∧ r.getLast? = some dst ∧
    ∀ q, isWalk g q = true → q.head? = some src →
      q.getLast? = some dst → r.length ≤ q.length := by
  have hbfs : bfsPaths g dst (totalNbrLen g + 1) (levelK g src 0) =
      some r := by
    unfold CryptoGraph.shortestPath at h
    cases hl : lookupL g.graph src with
    | none =>
      rw [hl] at h
      cases h
    | some nbrs =>
      rw [hl] at h
      exact h
  obtain ⟨j, _, hj2, hj3, hj4⟩ :=
    (bfsPaths_spec g src dst (totalNbrLen g + 1) 0).1 r hbfs
  obtain ⟨hw, hlen, hlast⟩ := (mem_levelK g src j r.reverse).mp hj2
  rw [List.reverse_reverse] at hw
  rw [List.length_reverse] at hlen
  rw [List.getLast?_reverse] at hlast
  have hne : r ≠ [] := by
    intro h0
    rw [h0] at hlen
    cases hlen
  have hdst : r.getLast? = some dst := by
    rw [List.headD_eq_head?_getD, List.head?_reverse] at hj3
    cases hg : r.getLast? with
    | none => exact absurd (List.getLast?_eq_none_iff.mp hg) hne
    | some x =>
      rw [hg] at hj3
      simp only [Option.getD_some] at hj3
      rw [hj3]
  refine ⟨hw, hlast, hdst, ?_⟩
  intro q hqw hqh hqd
  have hqne : q ≠ [] := by
    intro h0
    rw [h0] at hqh
    cases hqh
  have h1q : 0 < q.length := List.length_pos.mpr hqne
  have hmem : q.reverse ∈ levelK g src (q.length - 1) := by
    rw [mem_levelK]
    refine ⟨?_, ?_, ?_⟩
    · rw [List.reverse_reverse]
      exact hqw
    · rw [List.length_reverse]
      omega
    · rw [List.getLast?_reverse]
      exact hqh
  have hqd2 : q.reverse.headD "" = dst := by
    rw [List.headD_eq_head?_getD, List.head?_reverse, hqd]
    rfl
  by_cases hlt : q.length - 1 < j
  · exact absurd hqd2
      (hj4 (q.length - 1) (Nat.zero_le _) hlt q.reverse hmem)
  · omega

theorem shortestPath_complete (g : CryptoGraph) (src dst : String)
    (nbrs : List (String × EdgeStats)) (q : List String)
    (hl : lookupL g.graph src = some nbrs)
    (hw : isWalk g q = true) (hh : q.head? = some src)
    (hd : q.getLast? = some dst) :
    ∃ r, CryptoGraph.shortestPath g src dst = some r := by
  cases hres : CryptoGraph.shortestPath g src dst with
  | some r => exact ⟨r, rfl⟩
  | none =>
    exfalso
    have hbfs : bfsPaths g dst (totalNbrLen g + 1) (levelK g src 0) =
        none := by
      unfold CryptoGraph.shortestPath at hres
      rw [hl] at hres
      exact hres
    have hnone := (bfsPaths_spec g src dst (totalNbrLen g + 1) 0).2 hbfs
    have hqne : q ≠ [] := by
      intro h0
      rw [h0] at hh
      cases hh
    obtain ⟨q2, h1, h2, h3, h4, h5⟩ :=
      walk_shorten g q.length q (le_refl _) hw
    have hq2ne : q2 ≠ [] := by
      intro h0
      rw [h0] at h2
      rw [hh] at h2
      cases h2
    have hb : q2.length ≤ totalNbrLen g + 1 :=
      nodup_walk_length_le g q2 h1 h4
    have h1q : 0 < q2.length := List.length_pos.mpr hq2ne
    have hmem : q2.reverse ∈ levelK g src (q2.length - 1) := by
      rw [mem_levelK]
      refine ⟨?_, ?_, ?_⟩
      · rw [List.reverse_reverse]
        exact h1
      · rw [List.length_reverse]
        omega
      · rw [List.getLast?_reverse, h2]
        exact hh
    have hd2 : q2.reverse.headD "" = dst := by
      rw [List.headD_eq_head?_getD, List.head?_reverse, h3, hd]
      rfl
    exact hnone (q2.length - 1) (Nat.zero_le _) (by omega)
      q2.reverse hmem hd2

/-- C7 (modelled from the spec, since `graph.py` does not define
`shortest_path`): the search runs breadth-first over outgoing edges
only; any returned path is a walk from src to dst of minimal hop
count, and the result is not-found exactly when src has no outgoing
adjacency entry or no walk from src ends at dst. -/
theorem c7_shortest_path (g : CryptoGraph) (src dst : String) :
    (∀ r, CryptoGraph.shortestPath g src dst = some r →
      isWalk g r = true ∧ r.head? = some src ∧ r.getLast? = some dst ∧
      ∀ q, isWalk g q = true → q.head? = some src →
        q.getLast? = some dst → r.length ≤ q.length) ∧
    (CryptoGraph.shortestPath g src dst = none ↔
      lookupL g.graph src = none ∨
      ∀ q, isWalk g q = true → q.head? = some src →
        ¬ q.getLast? = some dst) := by
  constructor
  · intro r hr
    exact shortestPath_sound g src dst r hr
  · constructor
    · intro hnone
      cases hl : lookupL g.graph src with
      | none => exact Or.inl rfl
      | some nbrs =>
        refine Or.inr ?_
        intro q hw hh hd
        obtain ⟨r, hr⟩ := shortestPath_complete g src dst nbrs q hl hw hh hd
        rw [hnone] at hr
        cases hr
    · intro hdisj
      cases hres : CryptoGraph.shortestPath g src dst with
      | none => rfl
      | some r =>
        exfalso
        obtain ⟨hw, hh, hd, _⟩ := shortestPath_sound g src dst r hres
        rcases hdisj with hl | hq
        · unfold CryptoGraph.shortestPath at hres
          rw [hl] at hres
          cases hres
        · exact hq r hw hh hd

/-- The worked example of the spec: with directed edges A to B and
B to C only, the search returns [A, B, C] and finds no path from C
back to A. -/
def recAB : Record :=
  ⟨1, some "BTC", some "A", some "B", some 1, some 1, some "ok"⟩

/-- Second demo record, giving the edge B to C. -/
def recBC : Record :=
  ⟨2, some "BTC", some "B", some "C", some 1, some 1, some "ok"⟩

theorem shortestPath_demo :
    (CryptoGraph.buildGraphFromDb emptyGraph
        (applyDbOps [.ins recAB, .ins recBC])).shortestPath "A" "C" =
      some ["A", "B", "C"] ∧
    (CryptoGraph.buildGraphFromDb emptyGraph
        (applyDbOps [.ins recAB, .ins recBC])).shortestPath "C" "A" =
      none := by
  constructor <;> rfl

/-! ### Streaming analytics (C8, C9) -/

/-- The record filter of `_iter_amounts`: an empty (falsy) filter
string is ignored, a nonempty one must equal the stored field. -/
def keepB (sym st sw rw : String) (r : Record) : Bool :=
  (decide (sym = "") || decide (r.token = some sym)) &&
  ((decide (st = "") || decide (r.status = some st)) &&
   ((decide (sw = "") || decide (r.wallet_from = some sw)) &&
    (decide (rw = "") || decide (r.wallet_to = some rw))))

/-- `_iter_amounts`: strip-normalize the four optional filters, then
yield the price of every non-tombstoned record passing all filters,
skipping records whose price is missing. -/
def iterAmounts (db : CryptoDB)
    (symbol status sender_wallet receiver_wallet : Option String) :
    List ℚ :=
  let sym := (symbol.getD "").trim
  let st := (status.getD "").trim
  let sw := (sender_wallet.getD "").trim
  let rw := (receiver_wallet.getD "").trim
  db.data_store.filterMap (fun o =>
    match o with
    | none => none
    | some r => if keepB sym st sw rw r then r.price else none)

/-- The per-iteration state of `amount_usd_analytics`: Welford count,
running sum, min, max, mean and M2, plus the reservoir sample and the
index of the next random draw. -/
structure AnaState where
  n : Nat
  s : ℚ
  vmin : Option ℚ
  vmax : Option ℚ
  mean : ℚ
  m2 : ℚ
  sample : List ℚ
  drawIx : Nat

/-- The state before the loop. -/
def anaInit : AnaState := ⟨0, 0, none, none, 0, 0, [], 0⟩

/-- One iteration of the `amount_usd_analytics` loop; the seeded
`random.Random(1337).randint(1, n)` draws are supplied as the stream
`draws`, consumed one entry per reservoir-replacement decision. -/
def anaStep (sample_size : Nat) (draws : Nat → Nat)
    (st : AnaState) (x : ℚ) : AnaState :=
  let n := st.n + 1
  let s := st.s + x
  let vmin : Option ℚ :=
    some (match st.vmin with | none => x | some m => min m x)
  let vmax : Option ℚ :=
    some (match st.vmax with | none => x | some m => max m x)
  let delta := x - st.mean
  let mean := st.mean + delta / (n : ℚ)
  let delta2 := x - mean
  let m2 := st.m2 + delta * delta2
  if st.sample.length < sample_size then
    ⟨n, s, vmin, vmax, mean, m2, st.sample ++ [x], st.drawIx⟩
  else
    let j := draws st.drawIx
    if j ≤ sample_size then
      ⟨n, s, vmin, vmax, mean, m2, st.sample.set (j - 1) x, st.drawIx + 1⟩
    else
      ⟨n, s, vmin, vmax, mean, m2, st.sample, st.drawIx + 1⟩

/-- Python banker's rounding (`round` with no digits): half values go
to the even integer. -/
def pyRound (x : ℚ) : Int :=
  let f := Int.floor x
  let frac := x - f
  if frac < 1 / 2 then f
  else if (1 : ℚ) / 2 < frac then f + 1
  else if f % 2 = 0 then f else f + 1

/-- The inner `q(p)` of `amount_usd_analytics`: index
`round((len-1)*p)` clamped into range, over the sorted sample. -/
def pctl (sortedSample : List ℚ) (p : ℚ) : ℚ :=
  if sortedSample.isEmpty then 0
  else
    let m := sortedSample.length
    let idx := pyRound (((m : ℚ) - 1) * p)
    let idx2 := max 0 (min ((m : Int) - 1) idx)
    sortedSample.getD idx2.toNat 0

/-- The dictionary returned by `amount_usd_analytics`: either the
zero-count sentinel (count 0, filters, message, no numeric fields) or
the full statistics. `std_pop = math.sqrt(variance_pop)` is carried by
its square `variance_pop`, which is exact in ℚ. -/
inductive AnaResult where
  | empty (filters : String × String × String × String)
      (message : String) : AnaResult
  | stats (count : Nat) (sum : ℚ) (vmin vmax : Option ℚ) (mean : ℚ)
      (variance_pop : ℚ) (sample : List ℚ)
      (percentiles : ℚ × ℚ × ℚ × ℚ)
      (filters : String × String × String × String) : AnaResult
deriving Repr, DecidableEq

/-- `amount_usd_analytics`: one streaming pass (Welford + reservoir)
over the matching prices, then either the no-match sentinel or the
statistics dictionary with percentiles read from the sorted sample. -/
def amountUsdAnalytics (db : CryptoDB)
    (symbol status sender_wallet receiver_wallet : Option String)
    (sample_size : Nat) (draws : Nat → Nat) : AnaResult :=
  let xs := iterAmounts db symbol status sender_wallet receiver_wallet
  let st := xs.foldl (anaStep sample_size draws) anaInit
  let filters := (symbol.getD "", status.getD "", sender_wallet.getD "",
    receiver_wallet.getD "")
  if st.n = 0 then
    .empty filters "No matching records."
  else
    let variance_pop := if 0 < st.n then st.m2 / (st.n : ℚ) else 0
    let sortedSample := List.insertionSort (· ≤ ·) st.sample
    .stats st.n st.s st.vmin st.vmax st.mean variance_pop st.sample
      (pctl sortedSample (1 / 2), pctl sortedSample (9 / 10),
        pctl sortedSample (19 / 20), pctl sortedSample (99 / 100))
      filters

theorem anaStep_core (size : Nat) (draws : Nat → Nat) (st : AnaState)
    (x : ℚ) :
    (anaStep size draws st x).n = st.n + 1 ∧
    (anaStep size draws st x).s = st.s + x ∧
    (anaStep size draws st x).vmin =
      some (match st.vmin with | none => x | some m => min m x) ∧
    (anaStep size draws st x).vmax =
      some (match st.vmax with | none => x | some m => max m x) ∧
    (anaStep size draws st x).mean =
      st.mean + (x - st.mean) / ((st.n + 1 : Nat) : ℚ) := by
  unfold anaStep
  dsimp only
  split
  · exact ⟨rfl, rfl, rfl, rfl, rfl⟩
  · split
    · exact ⟨rfl, rfl, rfl, rfl, rfl⟩
    · exact ⟨rfl, rfl, rfl, rfl, rfl⟩

theorem anaFold_n_s (size : Nat) (draws : Nat → Nat) :
    ∀ (xs : List ℚ) (st : AnaState),
    (xs.foldl (anaStep size draws) st).n = st.n + xs.length ∧
    (xs.foldl (anaStep size draws) st).s = st.s + xs.sum := by
  intro xs
  induction xs with
  | nil => intro st; simp
  | cons x tl ih =>
    intro st
    rw [List.foldl_cons]
    obtain ⟨h1, h2⟩ := ih (anaStep size draws st x)
    obtain ⟨g1, g2, g3, g4, g5⟩ := anaStep_core size draws st x
    constructor
    · rw [h1, g1, List.length_cons]
      omega
    · rw [h2, g2, List.sum_cons]
      ring

theorem anaFold_mean (size : Nat) (draws : Nat → Nat) :
    ∀ (xs : List ℚ) (st : AnaState),
    st.mean * (st.n : ℚ) = st.s →
    (xs.foldl (anaStep size draws) st).mean *
      (((xs.foldl (anaStep size draws) st).n : ℚ)) =
      (xs.foldl (anaStep size draws) st).s := by
  intro xs
  induction xs with
  | nil => intro st h; exact h
  | cons x tl ih =>
    intro st h
    rw [List.foldl_cons]
    apply ih
    obtain ⟨g1, g2, _, _, g5⟩ := anaStep_core size draws st x
    have hne : ((st.n : ℚ) + 1) ≠ 0 := by positivity
    have hkey : (st.mean + (x - st.mean) / ((st.n : ℚ) + 1)) *
        ((st.n : ℚ) + 1) = st.mean * (st.n : ℚ) + x := by
      field_simp
      ring
    rw [g1, g2, g5]
    push_cast
    rw [hkey, h]

/-- Accumulated option-valued minimum, mirroring
`vmin = x if vmin is None else min(vmin, x)`. -/
def ominL (v : Option ℚ) : List ℚ → Option ℚ
  | [] => v
  | x :: tl =>
    match v with
    | none => ominL (some x) tl
    | some m => ominL (some (min m x)) tl

/-- Accumulated option-valued maximum. -/
def omaxL (v : Option ℚ) : List ℚ → Option ℚ
  | [] => v
  | x :: tl =>
    match v with
    | none => omaxL (some x) tl
    | some m => omaxL (some (max m x)) tl

theorem anaFold_vminmax (size : Nat) (draws : Nat → Nat) :
    ∀ (xs : List ℚ) (st : AnaState),
    (xs.foldl (anaStep size draws) st).vmin = ominL st.vmin xs ∧
    (xs.foldl (anaStep size draws) st).vmax = omaxL st.vmax xs := by
  intro xs
  induction xs with
  | nil => intro st; exact ⟨rfl, rfl⟩
  | cons x tl ih =>
    intro st
    rw [List.foldl_cons]
    obtain ⟨h1, h2⟩ := ih (anaStep size draws st x)
    obtain ⟨_, _, g3, g4, _⟩ := anaStep_core size draws st x
    constructor
    · rw [h1, g3]
      cases st.vmin <;> rfl
    · rw [h2, g4]
      cases st.vmax <;> rfl

theorem ominL_some : ∀ (xs : List ℚ) (m : ℚ),
    ominL (some m) xs = some (xs.foldl min m) := by
  intro xs
  induction xs with
  | nil => intro m; rfl
  | cons x tl ih => intro m; exact ih (min m x)

theorem omaxL_some : ∀ (xs : List ℚ) (m : ℚ),
    omaxL (some m) xs = some (xs.foldl max m) := by
  intro xs
  induction xs with
  | nil => intro m; rfl
  | cons x tl ih => intro m; exact ih (max m x)

theorem ominL_none (xs : List ℚ) : ominL none xs = xs.min? := by
  cases xs with
  | nil => rfl
  | cons x tl => exact ominL_some tl x

theorem omaxL_none (xs : List ℚ) : omaxL none xs = xs.max? := by
  cases xs with
  | nil => rfl
  | cons x tl => exact omaxL_some tl x

theorem anaFold_sample_fill (size : Nat) (draws : Nat → Nat) :
    ∀ (xs : List ℚ) (st : AnaState),
    st.sample.length + xs.length ≤ size →
    (xs.foldl (anaStep size draws) st).sample = st.sample ++ xs ∧
    (xs.foldl (anaStep size draws) st).drawIx = st.drawIx := by
  intro xs
  induction xs with
  | nil => intro st _; simp
  | cons x tl ih =>
    intro st h
    rw [List.foldl_cons]
    have hlt : st.sample.length < size := by
      rw [List.length_cons] at h
      omega
    have hstep : (anaStep size draws st x).sample = st.sample ++ [x] ∧
        (anaStep size draws st x).drawIx = st.drawIx := by
      unfold anaStep
      dsimp only
      rw [if_pos hlt]
      exact ⟨rfl, rfl⟩
    have hpre : (anaStep size draws st x).sample.length + tl.length ≤
        size := by
      rw [hstep.1, List.length_append, List.length_singleton]
      rw [List.length_cons] at h
      omega
    obtain ⟨h1, h2⟩ := ih (anaStep size draws st x) hpre
    rw [h1, h2, hstep.1, hstep.2]
    simp

theorem anaStep_full (size : Nat) (draws : Nat → Nat) (st : AnaState)
    (x : ℚ) (hfull : st.sample.length = size) :
    (anaStep size draws st x).sample =
      (if draws st.drawIx ≤ size then
        st.sample.set (draws st.drawIx - 1) x
       else st.sample) := by
  unfold anaStep
  dsimp only
  rw [if_neg (by omega)]
  split <;> rfl

/-- Decomposing a list of length n + 1 into its first n values and
its last value. -/
theorem take_concat_getLastD : ∀ (xs : List ℚ) (n : Nat),
    xs.length = n + 1 → xs = xs.take n ++ [xs.getLastD 0] := by
  intro xs
  induction xs with
  | nil => intro n h; cases h
  | cons x tl ih =>
    intro n h
    cases tl with
    | nil =>
      have hn : n = 0 := by
        rw [List.length_singleton] at h
        omega
      subst hn
      rfl
    | cons y tl2 =>
      have hn : 1 ≤ n := by
        simp only [List.length_cons] at h
        omega
      have h2 : (y :: tl2).length = (n - 1) + 1 := by
        simp only [List.length_cons] at h ⊢
        omega
      have hrec := ih (n - 1) h2
      have hlastD : (x :: y :: tl2).getLastD 0 = (y :: tl2).getLastD 0 := by
        rw [List.getLastD_eq_getLast?, List.getLastD_eq_getLast?,
          List.getLast?_cons_cons]
      have htake : (x :: y :: tl2).take n = x :: (y :: tl2).take (n - 1) := by
        rw [show n = (n - 1) + 1 from by omega]
        rfl
      rw [htake, hlastD, List.cons_append]
      rw [← hrec]

/-- Stripping the empty string (the default filter) is the identity. -/
theorem trim_empty : ("" : String).trim = "" := by
  have h1 : Substring.takeWhileAux "" ("" : String).endPos
      Char.isWhitespace 0 = 0 := by
    rw [Substring.takeWhileAux]
    simp
  have h2 : Substring.takeRightWhileAux "" 0 Char.isWhitespace
      ("" : String).endPos = 0 := by
    rw [Substring.takeRightWhileAux]
    simp
  show (Substring.trim ("" : String).toSubstring).toString = ""
  rw [show ("" : String).toSubstring = ⟨"", 0, ("" : String).endPos⟩ from rfl]
  rw [show Substring.trim ⟨"", 0, ("" : String).endPos⟩ =
      ⟨"", Substring.takeWhileAux "" ("" : String).endPos Char.isWhitespace 0,
        Substring.takeRightWhileAux ""
          (Substring.takeWhileAux "" ("" : String).endPos Char.isWhitespace 0)
          Char.isWhitespace ("" : String).endPos⟩ from rfl]
  rw [h1, h2]
  rfl

/-- With all four filters absent every stripped filter is empty, so
the pass keeps every non-tombstoned record with a present price. -/
theorem iterAmounts_nofilter (db : CryptoDB) :
    iterAmounts db none none none none =
      db.data_store.filterMap (fun o =>
        match o with
        | none => none
        | some r => if keepB "" "" "" "" r then r.price else none) := by
  unfold iterAmounts
  dsimp only
  simp only [Option.getD_none, trim_empty]

/-- C9: when no record matches the filters, the analytics call
returns (never raises) the zero-count sentinel carrying only the
filters and the explanatory message, with no numeric statistics
fields. -/
theorem c9_empty_result (db : CryptoDB)
    (symbol status sender_wallet receiver_wallet : Option String)
    (sample_size : Nat) (draws : Nat → Nat)
    (h : iterAmounts db symbol status sender_wallet receiver_wallet = []) :
    amountUsdAnalytics db symbol status sender_wallet receiver_wallet
        sample_size draws =
      .empty (symbol.getD "", status.getD "", sender_wallet.getD "",
        receiver_wallet.getD "") "No matching records." := by
  unfold amountUsdAnalytics
  dsimp only
  rw [h]
  rfl

theorem c9_empty_result_witness :
    iterAmounts CryptoDB.empty none none none none = [] ∧
    amountUsdAnalytics CryptoDB.empty none none none none 50000
        (fun _ => 1) =
      .empty ("", "", "", "") "No matching records." :=
  ⟨rfl, c9_empty_result CryptoDB.empty none none none none 50000
    (fun _ => 1) rfl⟩

/-- C8: with the seeded draws supplied as a stream of integers ≥ 1
(modelling `randint(1, n)`), over exactly sample_size + 1 matching
records the first sample_size matching values are kept verbatim, the
single subsequent value overwrites slot j - 1 only when the draw j is
at most sample_size, the returned sample has length exactly
sample_size, and count, sum, min, max (and the mean) are the exact
full-pass values over all matching records. -/
theorem c8_reservoir (db : CryptoDB)
    (symbol status sender_wallet receiver_wallet : Option String)
    (size : Nat) (draws : Nat → Nat)
    (hdraw : ∀ i, 1 ≤ draws i)
    (hlen :
      (iterAmounts db symbol status sender_wallet receiver_wallet).length =
        size + 1) :
    ∃ varp p50 p90 p95 p99,
      amountUsdAnalytics db symbol status sender_wallet receiver_wallet
          size draws =
        .stats (size + 1)
          (iterAmounts db symbol status sender_wallet receiver_wallet).sum
          (iterAmounts db symbol status sender_wallet receiver_wallet).min?
          (iterAmounts db symbol status sender_wallet receiver_wallet).max?
          ((iterAmounts db symbol status sender_wallet
              receiver_wallet).sum / ((size : ℚ) + 1))
          varp
          (if draws 0 ≤ size then
            ((iterAmounts db symbol status sender_wallet
                receiver_wallet).take size).set (draws 0 - 1)
              ((iterAmounts db symbol status sender_wallet
                  receiver_wallet).getLastD 0)
           else
            (iterAmounts db symbol status sender_wallet
                receiver_wallet).take size)
          (p50, p90, p95, p99)
          (symbol.getD "", status.getD "", sender_wallet.getD "",
            receiver_wallet.getD "") ∧
      (if draws 0 ≤ size then
          ((iterAmounts db symbol status sender_wallet
              receiver_wallet).take size).set (draws 0 - 1)
            ((iterAmounts db symbol status sender_wallet
                receiver_wallet).getLastD 0)
        else
          (iterAmounts db symbol status sender_wallet
              receiver_wallet).take size).length = size := by
  have hxsL := anaFold_n_s size draws
    (iterAmounts db symbol status sender_wallet receiver_wallet) anaInit
  have hn : ((iterAmounts db symbol status sender_wallet
      receiver_wallet).foldl (anaStep size draws) anaInit).n = size + 1 := by
    rw [hxsL.1]
    rw [hlen]
    simp [anaInit]
  have hs : ((iterAmounts db symbol status sender_wallet
      receiver_wallet).foldl (anaStep size draws) anaInit).s =
      (iterAmounts db symbol status sender_wallet receiver_wallet).sum := by
    rw [hxsL.2]
    exact zero_add _
  have hvm := anaFold_vminmax size draws
    (iterAmounts db symbol status sender_wallet receiver_wallet) anaInit
  have hvmin : ((iterAmounts db symbol status sender_wallet
      receiver_wallet).foldl (anaStep size draws) anaInit).vmin =
      (iterAmounts db symbol status sender_wallet receiver_wallet).min? := by
    rw [hvm.1]
    exact ominL_none _
  have hvmax : ((iterAmounts db symbol status sender_wallet
      receiver_wallet).foldl (anaStep size draws) anaInit).vmax =
      (iterAmounts db symbol status sender_wallet receiver_wallet).max? := by
    rw [hvm.2]
    exact omaxL_none _
  have hmean0 := anaFold_mean size draws
    (iterAmounts db symbol status sender_wallet receiver_wallet) anaInit
    (by norm_num [anaInit])
  have hcast : (((size + 1 : Nat)) : ℚ) = (size : ℚ) + 1 := by push_cast; ring
  have hmean : ((iterAmounts db symbol status sender_wallet
      receiver_wallet).foldl (anaStep size draws) anaInit).mean =
      (iterAmounts db symbol status sender_wallet receiver_wallet).sum /
        ((size : ℚ) + 1) := by
    rw [hn, hs, hcast] at hmean0
    have hne : ((size : ℚ) + 1) ≠ 0 := by positivity
    field_simp at hmean0 ⊢
    linarith [hmean0]
  have htakeLen : ((iterAmounts db symbol status sender_wallet
      receiver_wallet).take size).length = size := by
    rw [List.length_take, hlen]
    omega
  have hfill := anaFold_sample_fill size draws
    ((iterAmounts db symbol status sender_wallet receiver_wallet).take size)
    anaInit (by rw [htakeLen]; simp [anaInit])
  have hsample : ((iterAmounts db symbol status sender_wallet
      receiver_wallet).foldl (anaStep size draws) anaInit).sample =
      (if draws 0 ≤ size then
        ((iterAmounts db symbol status sender_wallet
            receiver_wallet).take size).set (draws 0 - 1)
          ((iterAmounts db symbol status sender_wallet
              receiver_wallet).getLastD 0)
       else
        (iterAmounts db symbol status sender_wallet
            receiver_wallet).take size) := by
    conv_lhs =>
      rw [take_concat_getLastD
        (iterAmounts db symbol status sender_wallet receiver_wallet) size
        hlen]
    rw [List.foldl_append]
    rw [show ∀ (b : AnaState) (z : ℚ),
        List.foldl (anaStep size draws) b [z] = anaStep size draws b z from
      fun b z => rfl]
    have hfull2 : ((List.take size (iterAmounts db symbol status
        sender_wallet receiver_wallet)).foldl (anaStep size draws)
        anaInit).sample.length = size := by
      rw [hfill.1]
      simp only [anaInit, List.nil_append]
      exact htakeLen
    rw [anaStep_full size draws _ _ hfull2]
    rw [hfill.1, hfill.2]
    simp only [anaInit, List.nil_append]
  have hlen2 : (if draws 0 ≤ size then
      ((iterAmounts db symbol status sender_wallet
          receiver_wallet).take size).set (draws 0 - 1)
        ((iterAmounts db symbol status sender_wallet
            receiver_wallet).getLastD 0)
    else
      (iterAmounts db symbol status sender_wallet
          receiver_wallet).take size).length = size := by
    split
    · rw [List.length_set]
      exact htakeLen
    · exact htakeLen
  have hnz : ¬ ((iterAmounts db symbol status sender_wallet
      receiver_wallet).foldl (anaStep size draws) anaInit).n = 0 := by
    rw [hn]
    omega
  have hres : amountUsdAnalytics db symbol status sender_wallet
      receiver_wallet size draws =
      .stats ((iterAmounts db symbol status sender_wallet
          receiver_wallet).foldl (anaStep size draws) anaInit).n
        ((iterAmounts db symbol status sender_wallet
            receiver_wallet).foldl (anaStep size draws) anaInit).s
        ((iterAmounts db symbol status sender_wallet
            receiver_wallet).foldl (anaStep size draws) anaInit).vmin
        ((iterAmounts db symbol status sender_wallet
            receiver_wallet).foldl (anaStep size draws) anaInit).vmax
        ((iterAmounts db symbol status sender_wallet
            receiver_wallet).foldl (anaStep size draws) anaInit).mean
        (if 0 < ((iterAmounts db symbol status sender_wallet
            receiver_wallet).foldl (anaStep size draws) anaInit).n then
          ((iterAmounts db symbol status sender_wallet
              receiver_wallet).foldl (anaStep size draws) anaInit).m2 /
            ((((iterAmounts db symbol status sender_wallet
                receiver_wallet).foldl (anaStep size draws) anaInit).n : ℚ))
         else 0)
        ((iterAmounts db symbol status sender_wallet
            receiver_wallet).foldl (anaStep size draws) anaInit).sample
        (pctl (List.insertionSort (· ≤ ·)
            ((iterAmounts db symbol status sender_wallet
              receiver_wallet).foldl (anaStep size draws) anaInit).sample)
            (1 / 2),
          pctl (List.insertionSort (· ≤ ·)
            ((iterAmounts db symbol status sender_wallet
              receiver_wallet).foldl (anaStep size draws) anaInit).sample)
            (9 / 10),
          pctl (List.insertionSort (· ≤ ·)
            ((iterAmounts db symbol status sender_wallet
              receiver_wallet).foldl (anaStep size draws) anaInit).sample)
            (19 / 20),
          pctl (List.insertionSort (· ≤ ·)
            ((iterAmounts db symbol status sender_wallet
              receiver_wallet).foldl (anaStep size draws) anaInit).sample)
            (99 / 100))
        (symbol.getD "", status.getD "", sender_wallet.getD "",
          receiver_wallet.getD "") := by
    unfold amountUsdAnalytics
    dsimp only
    rw [if_neg hnz]
  rw [hn, hs, hvmin, hvmax, hmean, hsample] at hres
  exact ⟨_, _, _, _, _, hres, hlen2⟩

theorem c8_reservoir_witness :
    ∃ varp p50 p90 p95 p99,
      amountUsdAnalytics (applyDbOps [.ins sampleRecord, .ins recAB]) none
          none none none 1 (fun _ => 1) =
        .stats 2
          (iterAmounts (applyDbOps [.ins sampleRecord, .ins recAB]) none
              none none none).sum
          (iterAmounts (applyDbOps [.ins sampleRecord, .ins recAB]) none
              none none none).min?
          (iterAmounts (applyDbOps [.ins sampleRecord, .ins recAB]) none
              none none none).max?
          ((iterAmounts (applyDbOps [.ins sampleRecord, .ins recAB]) none
              none none none).sum / ((1 : ℚ) + 1))
          varp
          (if (fun _ : Nat => 1) 0 ≤ 1 then
            ((iterAmounts (applyDbOps [.ins sampleRecord, .ins recAB]) none
                none none none).take 1).set ((fun _ : Nat => 1) 0 - 1)
              ((iterAmounts (applyDbOps [.ins sampleRecord, .ins recAB])
                  none none none none).getLastD 0)
           else
            (iterAmounts (applyDbOps [.ins sampleRecord, .ins recAB]) none
                none none none).take 1)
          (p50, p90, p95, p99) ("", "", "", "") ∧
      (if (fun _ : Nat => 1) 0 ≤ 1 then
          ((iterAmounts (applyDbOps [.ins sampleRecord, .ins recAB]) none
              none none none).take 1).set ((fun _ : Nat => 1) 0 - 1)
            ((iterAmounts (applyDbOps [.ins sampleRecord, .ins recAB])
                none none none none).getLastD 0)
        else
          (iterAmounts (applyDbOps [.ins sampleRecord, .ins recAB]) none
              none none none).take 1).length = 1 :=
  c8_reservoir (applyDbOps [.ins sampleRecord, .ins recAB]) none none none
    none 1 (fun _ => 1) (fun i => Nat.le_refl 1)
    (by rw [iterAmounts_nofilter]; rfl)

end MiniDB
